import Mathlib

/-!
Verification of the singly linked list container in `src/linked_list.py`
(class `SinglyLinkedList`).

The Python class keeps mutable heap nodes (`_Node` with fields `value` and
`next`), a `head` reference, a non-owning `tail` reference and a counter
`_len`.  We embed it with an explicit arena: nodes live in a list `heap`,
a node reference is its index (so Python object identity `is` becomes
equality of indices), `None` references are `Option.none`, and unlinked
nodes simply stay in the arena as garbage, which is observationally the
same as Python garbage collection.  Python `while` loops are embedded as
fuel-indexed recursions; the fuel passed by each operation (`_len`) is an
upper bound on the number of iterations the source loop performs on any
state satisfying the structural invariant, which we prove is every
reachable state.  Branches where the Python code would die on a failed
`assert` or attribute access (all provably unreachable from reachable
states) are mapped to the distinguished error `LLErr.crash`, kept apart
from the two real error kinds `IndexOutOfRange` and `EmptyContainer`
(both `IndexError` in the source, distinguished by the spec).
-/

/-- Embedding of the `_Node` dataclass: one value and an optional forward
reference (`next`), references being arena indices. -/
structure LNode (α : Type) where
  value : α
  next : Option Nat
deriving Repr, DecidableEq

/-- Embedding of the `SinglyLinkedList` object state: the arena of all nodes
ever allocated, the `head` and `tail` references and the `_len` counter. -/
structure SinglyLinkedList (α : Type) where
  heap : List (LNode α)
  head : Option Nat
  tail : Option Nat
  _len : Nat
deriving Repr, DecidableEq

/-- The error outcomes of the Python methods: the two `IndexError` kinds the
spec names, plus `crash` for a failed `assert` / attribute access on `None`
(never raised by the source on well-formed states; we prove those branches
unreachable). -/
inductive LLErr where
  | indexOutOfRange
  | emptyContainer
  | crash
deriving Repr, DecidableEq

namespace SinglyLinkedList

variable {α : Type}

/-- `__init__` with no iterable: `head = None`, `tail = None`, `_len = 0`. -/
def emptyList : SinglyLinkedList α := ⟨[], none, none, 0⟩

/-- Value stored at a node reference, `none` when the reference is dangling
(never the case for references held by a well-formed list). -/
def valueAt (h : List (LNode α)) (i : Nat) : Option α :=
  (h.get? i).map LNode.value

/-- Overwrite the `next` field of the node at index `i`
(Python `node.next = nxt`). -/
def updNext (h : List (LNode α)) (i : Nat) (nxt : Option Nat) : List (LNode α) :=
  match h.get? i with
  | some n => h.set i { n with next := nxt }
  | none => h

/-- Overwrite the `value` field of the node at index `i`
(Python `node.value = v`). -/
def updValue (h : List (LNode α)) (i : Nat) (v : α) : List (LNode α) :=
  match h.get? i with
  | some n => h.set i { n with value := v }
  | none => h

/-- One step of pointer chasing: `cur = cur.next`, staying at `none` when the
reference is absent or dangling. -/
def stepPtr (h : List (LNode α)) : Option Nat → Option Nat
  | none => none
  | some i =>
    match h.get? i with
    | some n => n.next
    | none => none

/-- `k` steps of pointer chasing (the `for _ in range(index)` loop of
`_node_at`). -/
def walkN (h : List (LNode α)) : Option Nat → Nat → Option Nat
  | p, 0 => p
  | p, k + 1 => walkN h (stepPtr h p) k

/-- `_node_at(index)`: bounds check then walk `index` links from `head`;
returns the node reference.  The `crash` branch is the failed `assert cur is
not None` of the source, unreachable on well-formed states. -/
def node_at (s : SinglyLinkedList α) (index : Int) : Except LLErr Nat :=
  if index < 0 ∨ (s._len : Int) ≤ index then .error .indexOutOfRange
  else
    match walkN s.heap s.head index.toNat with
    | some i => .ok i
    | none => .error .crash

/-- `__len__`. -/
def length (s : SinglyLinkedList α) : Nat := s._len

/-- The body of `__iter__`: walk from `p` yielding values while the reference
is present, with fuel bounding the number of iterations (the source loop is
unbounded; on every well-formed state it performs exactly `_len` iterations,
so any fuel at least the chain length gives the loop's full output). -/
def iterFrom (h : List (LNode α)) : Nat → Option Nat → List α
  | _, none => []
  | 0, some _ => []
  | fuel + 1, some i =>
    match h.get? i with
    | some n => n.value :: iterFrom h fuel n.next
    | none => []

/-- `__iter__`, run to exhaustion: the head-to-tail sequence of values.  Fuel
`heap.length` dominates the length of any acyclic chain in the arena. -/
def iter (s : SinglyLinkedList α) : List α :=
  iterFrom s.heap s.heap.length s.head

/-- `prepend(value)`: new node whose `next` is the old head becomes head; if
the list was empty it becomes the tail too. -/
def prepend (s : SinglyLinkedList α) (v : α) : SinglyLinkedList α :=
  let node : LNode α := ⟨v, s.head⟩
  { heap := s.heap ++ [node]
    head := some s.heap.length
    tail := if s.tail = none then some s.heap.length else s.tail
    _len := s._len + 1 }

/-- `append(value)`: new node with no successor; empty list makes it both head
and tail, otherwise it is linked after the old tail. -/
def append (s : SinglyLinkedList α) (v : α) : SinglyLinkedList α :=
  let node : LNode α := ⟨v, none⟩
  let m := s.heap.length
  match s.tail with
  | none =>
      { heap := s.heap ++ [node], head := some m, tail := some m, _len := s._len + 1 }
  | some t =>
      { heap := updNext (s.heap ++ [node]) t (some m)
        head := s.head
        tail := some m
        _len := s._len + 1 }

/-- Construction from an iterable: append each element in order (an absent or
empty iterable leaves the list empty, exactly as `if iterable:` does). -/
def ofIterable (xs : List α) : SinglyLinkedList α :=
  xs.foldl append emptyList

/-- `pop_left()`: raises on empty, otherwise unlinks the head node and returns
its value, clearing `tail` when the list became empty. -/
def pop_left (s : SinglyLinkedList α) : Except LLErr (α × SinglyLinkedList α) :=
  match s.head with
  | none => .error .emptyContainer
  | some i =>
    match s.heap.get? i with
    | none => .error .crash
    | some n =>
      .ok (n.value,
        { heap := s.heap
          head := n.next
          tail := if n.next = none then none else s.tail
          _len := s._len - 1 })

/-- `get(index)`: value of the node at `index`. -/
def get (s : SinglyLinkedList α) (index : Int) : Except LLErr α :=
  match node_at s index with
  | .error e => .error e
  | .ok i =>
    match s.heap.get? i with
    | some n => .ok n.value
    | none => .error .crash

/-- `set(index, value)`: overwrite the value of the node at `index`. -/
def set (s : SinglyLinkedList α) (index : Int) (v : α) :
    Except LLErr (SinglyLinkedList α) :=
  match node_at s index with
  | .error e => .error e
  | .ok i => .ok { s with heap := updValue s.heap i v }

/-- `insert(index, value)`: bounds check, then prepend / append at the ends,
otherwise link a fresh node after the node at `index - 1`. -/
def insert (s : SinglyLinkedList α) (index : Int) (v : α) :
    Except LLErr (SinglyLinkedList α) :=
  if index < 0 ∨ (s._len : Int) < index then .error .indexOutOfRange
  else if index = 0 then .ok (s.prepend v)
  else if index = (s._len : Int) then .ok (s.append v)
  else
    match node_at s (index - 1) with
    | .error e => .error e
    | .ok prev =>
      match s.heap.get? prev with
      | none => .error .crash
      | some pn =>
        let m := s.heap.length
        let node : LNode α := ⟨v, pn.next⟩
        .ok { heap := updNext (s.heap ++ [node]) prev (some m)
              head := s.head
              tail := s.tail
              _len := s._len + 1 }

/-- The `while prev.next is not self.tail` search of `pop()`: chase `prev`
forward until its `next` reference is identical to `tl`.  Fuel bounds the
iterations; `none` is the failed `assert prev is not None` or a dangling
reference, both unreachable on well-formed states. -/
def findPrev (h : List (LNode α)) (tl : Option Nat) : Nat → Nat → Option Nat
  | 0, _ => none
  | fuel + 1, prev =>
    match h.get? prev with
    | none => none
    | some n =>
      if n.next = tl then some prev
      else
        match n.next with
        | none => none
        | some p => findPrev h tl fuel p

/-- `pop()`: raises on empty; a single node clears both references; otherwise
the predecessor of the tail is located by traversal, its `next` is cleared and
it becomes the tail. -/
def pop (s : SinglyLinkedList α) : Except LLErr (α × SinglyLinkedList α) :=
  match s.head with
  | none => .error .emptyContainer
  | some hd =>
    if s.head = s.tail then
      match s.heap.get? hd with
      | none => .error .crash
      | some n =>
        .ok (n.value, { s with head := none, tail := none, _len := s._len - 1 })
    else
      match findPrev s.heap s.tail s._len hd with
      | none => .error .crash
      | some prev =>
        match s.tail with
        | none => .error .crash
        | some t =>
          match s.heap.get? t with
          | none => .error .crash
          | some tn =>
            .ok (tn.value,
              { heap := updNext s.heap prev none
                head := s.head
                tail := some prev
                _len := s._len - 1 })

/-- The scanning loop of `remove(value)`: walk `(prev, cur)` from
`(None, head)`; on the first node whose value equals `v`, unlink it (through
`head` when `prev` is `None`, else through `prev.next`), move `tail` back to
`prev` when the unlinked node was the tail, and report success with the
updated `(heap, head, tail)`.  `none` is fuel exhaustion or a dangling
reference, unreachable on well-formed states. -/
def removeLoop [DecidableEq α] (v : α) :
    Nat → List (LNode α) → Option Nat → Option Nat → Option Nat → Option Nat →
    Option (Bool × List (LNode α) × Option Nat × Option Nat)
  | _, h, hd, tl, _, none => some (false, h, hd, tl)
  | 0, _, _, _, _, some _ => none
  | fuel + 1, h, hd, tl, prev, some c =>
    match h.get? c with
    | none => none
    | some n =>
      if n.value = v then
        let h2 := match prev with
          | none => h
          | some p => updNext h p n.next
        let hd2 := match prev with
          | none => n.next
          | some _ => hd
        let tl2 := if some c = tl then prev else tl
        some (true, h2, hd2, tl2)
      else removeLoop v fuel h hd tl (some c) n.next

/-- `remove(value)`: scan for the first occurrence; `True` with the node
unlinked and `_len` decremented when found, `False` and no change otherwise. -/
def remove [DecidableEq α] (s : SinglyLinkedList α) (v : α) :
    Option (Bool × SinglyLinkedList α) :=
  match removeLoop v s._len s.heap s.head s.tail none s.head with
  | none => none
  | some (found, h2, hd2, tl2) =>
    if found then
      some (true, { heap := h2, head := hd2, tail := tl2, _len := s._len - 1 })
    else some (false, s)

/-- The three-pointer loop of `reverse()`: repeatedly redirect `cur.next` to
`prev` and advance; returns the final heap and `prev` (the new head).  `none`
is fuel exhaustion or a dangling reference, unreachable on well-formed
states. -/
def reverseLoop :
    Nat → List (LNode α) → Option Nat → Option Nat →
    Option (List (LNode α) × Option Nat)
  | _, h, prev, none => some (h, prev)
  | 0, _, _, some _ => none
  | fuel + 1, h, prev, some c =>
    match h.get? c with
    | none => none
    | some n => reverseLoop fuel (h.set c { n with next := prev }) (some c) n.next

/-- `reverse()`: `tail` is first redirected to the old head, then the loop
reverses every link and the final `prev` becomes the head. -/
def reverse (s : SinglyLinkedList α) : Option (SinglyLinkedList α) :=
  match reverseLoop s._len s.heap none s.head with
  | none => none
  | some (h2, p) =>
    some { heap := h2, head := p, tail := s.head, _len := s._len }

end SinglyLinkedList

namespace SinglyLinkedList

variable {α : Type}

/-- `Seg h p l q`: starting from reference `p`, repeatedly following `next`
fields in heap `h` visits exactly the nodes `l` (in order) and exits with
reference `q`.  This is the path semantics of the mutable chain. -/
inductive Seg (h : List (LNode α)) : Option Nat → List Nat → Option Nat → Prop
  | nil (p : Option Nat) : Seg h p [] p
  | cons {i : Nat} {n : LNode α} {l : List Nat} {q : Option Nat} :
      h.get? i = some n → Seg h n.next l q → Seg h (some i) (i :: l) q

/-- A complete chain: the walk from `p` visits `l` and terminates at `None`.
The existence of such a finite `l` is exactly acyclicity of the chain. -/
def Follows (h : List (LNode α)) (p : Option Nat) (l : List Nat) : Prop :=
  Seg h p l none

/-- The values stored along a list of node references (skipping dangling ones;
along a `Seg` every reference resolves, so this is exactly the value list). -/
def chainVals (h : List (LNode α)) (l : List Nat) : List α :=
  l.filterMap (fun i => valueAt h i)

/-- The value of the `prev` variable of the scanning loops after walking the
nodes `l` starting from `prev = p`: the last node of `l`, or `p` when `l` is
empty. -/
def lastO (l : List Nat) (p : Option Nat) : Option Nat :=
  match l.getLast? with
  | none => p
  | some x => some x

/-- Representation predicate: `ids` is the complete chain of the list — the
walk from `head` visits `ids` and stops at `None`, `_len` counts it, and
`tail` is identical to its last node (or `None` when empty). -/
def Rep (s : SinglyLinkedList α) (ids : List Nat) : Prop :=
  Follows s.heap s.head ids ∧ s._len = ids.length ∧ s.tail = ids.getLast?

/-- A well-formed list state: some chain represents it. -/
def Inv (s : SinglyLinkedList α) : Prop := ∃ ids, Rep s ids

/-- The value held by the node the `head` reference designates. -/
def headValue (s : SinglyLinkedList α) : Option α :=
  match s.head with
  | none => none
  | some i => valueAt s.heap i

/-- The value held by the node the `tail` reference designates. -/
def tailValue (s : SinglyLinkedList α) : Option α :=
  match s.tail with
  | none => none
  | some i => valueAt s.heap i

/-- The structural invariant in the spec's own terms: `head` is empty iff
`tail` is empty iff the length is zero, and on a non-empty list walking from
`head` reaches the node identical to `tail` after `length - 1` links and
falls off the chain after exactly `length` links. -/
def StructuralInv (s : SinglyLinkedList α) : Prop :=
  (s.head = none ↔ s._len = 0) ∧ (s.tail = none ↔ s._len = 0) ∧
    (s._len ≠ 0 →
      walkN s.heap s.head (s._len - 1) = s.tail ∧
      walkN s.heap s.head s._len = none)

/-- The states reachable through the public interface: construction (empty or
from an iterable) followed by any finite sequence of mutating operations,
each succeeding run of a fallible operation taken at its returned state. -/
inductive Reachable [DecidableEq α] : SinglyLinkedList α → Prop
  | init (xs : List α) : Reachable (ofIterable xs)
  | prepend_step {s : SinglyLinkedList α} (v : α) :
      Reachable s → Reachable (s.prepend v)
  | append_step {s : SinglyLinkedList α} (v : α) :
      Reachable s → Reachable (s.append v)
  | pop_left_step {s s' : SinglyLinkedList α} {v : α} :
      Reachable s → s.pop_left = .ok (v, s') → Reachable s'
  | pop_step {s s' : SinglyLinkedList α} {v : α} :
      Reachable s → s.pop = .ok (v, s') → Reachable s'
  | set_step {s s' : SinglyLinkedList α} {i : Int} {v : α} :
      Reachable s → s.set i v = .ok s' → Reachable s'
  | insert_step {s s' : SinglyLinkedList α} {i : Int} {v : α} :
      Reachable s → s.insert i v = .ok s' → Reachable s'
  | remove_step {s s' : SinglyLinkedList α} {b : Bool} {v : α} :
      Reachable s → s.remove v = some (b, s') → Reachable s'
  | reverse_step {s s' : SinglyLinkedList α} :
      Reachable s → s.reverse = some s' → Reachable s'

theorem seg_append {h : List (LNode α)} {p q r : Option Nat} {l₁ l₂ : List Nat}
    (h₁ : Seg h p l₁ q) (h₂ : Seg h q l₂ r) : Seg h p (l₁ ++ l₂) r := by
  induction h₁ with
  | nil _ => simpa using h₂
  | cons hg _ ih => exact Seg.cons hg (ih h₂)

theorem seg_split {h : List (LNode α)} {p r : Option Nat} {l₁ l₂ : List Nat}
    (hs : Seg h p (l₁ ++ l₂) r) : ∃ q, Seg h p l₁ q ∧ Seg h q l₂ r := by
  induction l₁ generalizing p with
  | nil => exact ⟨p, Seg.nil p, hs⟩
  | cons i t ih =>
    cases hs with
    | cons hg htail =>
      obtain ⟨q, hq₁, hq₂⟩ := ih htail
      exact ⟨q, Seg.cons hg hq₁, hq₂⟩

theorem seg_mem_lt {h : List (LNode α)} {p q : Option Nat} {l : List Nat}
    (hs : Seg h p l q) {i : Nat} (hi : i ∈ l) : i < h.length := by
  induction hs with
  | nil _ => cases hi
  | cons hg _ ih =>
    rcases List.mem_cons.mp hi with rfl | hi
    · exact (List.get?_eq_some.mp hg).1
    · exact ih hi


theorem follows_det {h : List (LNode α)} {p : Option Nat} {l₁ l₂ : List Nat}
    (h₁ : Follows h p l₁) (h₂ : Follows h p l₂) : l₁ = l₂ := by
  induction l₁ generalizing p l₂ with
  | nil =>
    cases h₁
    cases h₂
    rfl
  | cons i t ih =>
    cases h₁ with
    | cons hg htail =>
      cases h₂ with
      | cons hg₂ htail₂ =>
        rw [hg] at hg₂
        cases hg₂
        exact congrArg _ (ih htail htail₂)

theorem follows_mem_suffix {h : List (LNode α)} {p : Option Nat} {l : List Nat}
    (hf : Follows h p l) {i : Nat} (hi : i ∈ l) :
    ∃ t, (i :: t) <:+ l ∧ Follows h (some i) (i :: t) := by
  induction l generalizing p with
  | nil => cases hi
  | cons j t ih =>
    cases hf with
    | cons hg htail =>
      rcases List.mem_cons.mp hi with rfl | hi
      · exact ⟨t, List.suffix_refl _, Seg.cons hg htail⟩
      · obtain ⟨u, hsuf, hfol⟩ := ih htail hi
        exact ⟨u, hsuf.trans (List.suffix_cons _ _), hfol⟩

theorem follows_nodup {h : List (LNode α)} {p : Option Nat} {l : List Nat}
    (hf : Follows h p l) : l.Nodup := by
  induction l generalizing p with
  | nil => exact List.nodup_nil
  | cons i t ih =>
    cases hf with
    | cons hg htail =>
      refine List.nodup_cons.mpr ⟨fun hmem => ?_, ih htail⟩
      obtain ⟨u, hsuf, hfol⟩ := follows_mem_suffix htail hmem
      have hdet := follows_det hfol (Seg.cons hg htail)
      have hlen := List.IsSuffix.length_le hsuf
      rw [hdet] at hlen
      simp at hlen

theorem seg_extend {h hs : List (LNode α)} {p q : Option Nat} {l : List Nat}
    (hseg : Seg h p l q) : Seg (h ++ hs) p l q := by
  induction hseg with
  | nil _ => exact Seg.nil _
  | cons hg _ ih =>
    refine Seg.cons ?_ ih
    rw [List.get?_append (List.get?_eq_some.mp hg).1]
    exact hg

theorem seg_set_outside {h : List (LNode α)} {p q : Option Nat} {l : List Nat}
    {j : Nat} {n : LNode α} (hj : j ∉ l) (hseg : Seg h p l q) :
    Seg (h.set j n) p l q := by
  induction hseg with
  | nil _ => exact Seg.nil _
  | @cons i nd t r hg _ ih =>
    have hij : j ≠ i := fun hcon => hj (hcon ▸ List.mem_cons_self _ _)
    refine Seg.cons ?_ (ih (fun hmem => hj (List.mem_cons_of_mem _ hmem)))
    rw [List.get?_set_ne _ _ hij]
    exact hg

theorem get?_updValue (h : List (LNode α)) (j : Nat) (v : α) (i : Nat) :
    (updValue h j v).get? i =
      if i = j then (h.get? i).map (fun n => { n with value := v })
      else h.get? i := by
  unfold updValue
  by_cases hij : i = j
  · subst hij
    rw [if_pos rfl]
    cases hjn : h.get? i with
    | none => exact hjn
    | some m =>
      rw [List.get?_set_eq_of_lt _ (List.get?_eq_some.mp hjn).1]
      rfl
  · rw [if_neg hij]
    cases hjn : h.get? j with
    | none => rfl
    | some m => rw [List.get?_set_ne _ _ (fun hcon => hij hcon.symm)]

theorem seg_updValue {h : List (LNode α)} {p q : Option Nat} {l : List Nat}
    {j : Nat} {v : α} (hseg : Seg h p l q) : Seg (updValue h j v) p l q := by
  induction hseg with
  | nil _ => exact Seg.nil _
  | @cons i nd t r hg _ ih =>
    by_cases hij : i = j
    · subst hij
      refine Seg.cons (n := { nd with value := v }) ?_ ih
      rw [get?_updValue, if_pos rfl, hg]
      rfl
    · refine Seg.cons ?_ ih
      rw [get?_updValue, if_neg hij]
      exact hg

theorem walkN_none (h : List (LNode α)) : ∀ k, walkN h none k = none
  | 0 => rfl
  | k + 1 => walkN_none h k

theorem walkN_succ (h : List (LNode α)) (p : Option Nat) (k : Nat) :
    walkN h p (k + 1) = walkN h (stepPtr h p) k := rfl

theorem walkN_eq_get? {h : List (LNode α)} {p : Option Nat} {l : List Nat}
    (hf : Follows h p l) : ∀ k, walkN h p k = l.get? k := by
  intro k
  induction k generalizing p l with
  | zero =>
    cases hf with
    | nil => rfl
    | cons hg htail => rfl
  | succ k ih =>
    cases hf with
    | nil =>
      simp [walkN_none]
    | @cons i n t _ hg htail =>
      have hstep : stepPtr h (some i) = n.next := by
        have hg2 : h[i]? = some n := by
          rw [← List.get?_eq_getElem?]
          exact hg
        simp [stepPtr, hg2]
      rw [walkN_succ, hstep]
      exact ih htail

theorem chainVals_append (h : List (LNode α)) (l₁ l₂ : List Nat) :
    chainVals h (l₁ ++ l₂) = chainVals h l₁ ++ chainVals h l₂ :=
  List.filterMap_append l₁ l₂ _

theorem seg_chainVals_length {h : List (LNode α)} {p q : Option Nat}
    {l : List Nat} (hs : Seg h p l q) : (chainVals h l).length = l.length := by
  induction hs with
  | nil _ => rfl
  | @cons i n t r hg _ ih =>
    have hv : valueAt h i = some n.value := by
      unfold valueAt
      rw [hg]
      rfl
    simp only [chainVals, List.filterMap_cons, hv] at ih ⊢
    simp [ih]

theorem chainVals_congr {h₁ h₂ : List (LNode α)} {l : List Nat}
    (hv : ∀ i ∈ l, valueAt h₁ i = valueAt h₂ i) :
    chainVals h₁ l = chainVals h₂ l := by
  induction l with
  | nil => rfl
  | cons i t ih =>
    have hrest := ih (fun j hj => hv j (List.mem_cons_of_mem _ hj))
    simp only [chainVals, List.filterMap_cons] at hrest ⊢
    rw [hv i (List.mem_cons_self i t), hrest]

theorem valueAt_updNext (h : List (LNode α)) (j : Nat) (x : Option Nat)
    (i : Nat) : valueAt (updNext h j x) i = valueAt h i := by
  unfold valueAt updNext
  cases hjn : h.get? j with
  | none => rfl
  | some m =>
    by_cases hij : i = j
    · subst hij
      rw [List.get?_set_eq_of_lt _ (List.get?_eq_some.mp hjn).1, hjn]
      rfl
    · rw [List.get?_set_ne _ _ (fun hcon => hij hcon.symm)]

theorem get?_updNext (h : List (LNode α)) (j : Nat) (x : Option Nat) (i : Nat) :
    (updNext h j x).get? i =
      if i = j then (h.get? i).map (fun n => { n with next := x })
      else h.get? i := by
  unfold updNext
  by_cases hij : i = j
  · subst hij
    rw [if_pos rfl]
    cases hjn : h.get? i with
    | none => exact hjn
    | some m =>
      rw [List.get?_set_eq_of_lt _ (List.get?_eq_some.mp hjn).1]
      rfl
  · rw [if_neg hij]
    cases hjn : h.get? j with
    | none => rfl
    | some m => rw [List.get?_set_ne _ _ (fun hcon => hij hcon.symm)]

theorem valueAt_append_left {h hs : List (LNode α)} {i : Nat}
    (hi : i < h.length) : valueAt (h ++ hs) i = valueAt h i := by
  unfold valueAt
  rw [List.get?_append hi]

theorem follows_length_le {h : List (LNode α)} {p : Option Nat} {l : List Nat}
    (hf : Follows h p l) : l.length ≤ h.length := by
  have hnd := follows_nodup hf
  have hsub : l.toFinset ⊆ Finset.range h.length := by
    intro i hi
    rw [List.mem_toFinset] at hi
    exact Finset.mem_range.mpr (seg_mem_lt hf hi)
  have hcard := Finset.card_le_card hsub
  rw [List.toFinset_card_of_nodup hnd, Finset.card_range] at hcard
  exact hcard

theorem iterFrom_eq_chainVals {h : List (LNode α)} {p : Option Nat}
    {l : List Nat} (hf : Follows h p l) :
    ∀ fuel, l.length ≤ fuel → iterFrom h fuel p = chainVals h l := by
  induction l generalizing p with
  | nil =>
    intro fuel _
    cases hf
    cases fuel <;> rfl
  | cons i t ih =>
    intro fuel hfuel
    cases hf with
    | @cons _ n _ _ hg htail =>
      cases fuel with
      | zero => simp at hfuel
      | succ f =>
        have hv : valueAt h i = some n.value := by
          unfold valueAt
          rw [hg]
          rfl
        have hone : iterFrom h (f + 1) (some i) = n.value :: iterFrom h f n.next := by
          show (match h.get? i with
                | some n => n.value :: iterFrom h f n.next
                | none => []) = n.value :: iterFrom h f n.next
          rw [hg]
        rw [hone, ih htail f (by simpa using Nat.succ_le_succ_iff.mp hfuel)]
        simp only [chainVals, List.filterMap_cons, hv]

theorem rep_iter {s : SinglyLinkedList α} {ids : List Nat} (hr : Rep s ids) :
    iter s = chainVals s.heap ids :=
  iterFrom_eq_chainVals hr.1 s.heap.length (follows_length_le hr.1)

theorem rep_iter_length {s : SinglyLinkedList α} {ids : List Nat}
    (hr : Rep s ids) : (iter s).length = s._len := by
  rw [rep_iter hr, hr.2.1]
  exact seg_chainVals_length hr.1

theorem follows_nil_inv {h : List (LNode α)} {p : Option Nat}
    (hf : Follows h p []) : p = none := by
  cases hf
  rfl

theorem follows_none_inv {h : List (LNode α)} {l : List Nat}
    (hf : Follows h none l) : l = [] := by
  cases hf
  rfl

theorem seg_updNext_outside {h : List (LNode α)} {p q : Option Nat}
    {l : List Nat} {j : Nat} {x : Option Nat} (hj : j ∉ l)
    (hseg : Seg h p l q) : Seg (updNext h j x) p l q := by
  unfold updNext
  cases h.get? j with
  | none => exact hseg
  | some m => exact seg_set_outside hj hseg

theorem chainVals_extend {h g : List (LNode α)} {p q : Option Nat}
    {l : List Nat} (hseg : Seg h p l q) :
    chainVals (h ++ g) l = chainVals h l :=
  chainVals_congr (fun _ hi => valueAt_append_left (seg_mem_lt hseg hi))

theorem chainVals_updNext (h : List (LNode α)) (j : Nat) (x : Option Nat)
    (l : List Nat) : chainVals (updNext h j x) l = chainVals h l :=
  chainVals_congr (fun i _ => valueAt_updNext h j x i)

theorem rep_emptyList : Rep (emptyList : SinglyLinkedList α) [] :=
  ⟨Seg.nil none, rfl, rfl⟩

theorem rep_prepend {s : SinglyLinkedList α} {ids : List Nat}
    (hr : Rep s ids) (v : α) : Rep (s.prepend v) (s.heap.length :: ids) := by
  obtain ⟨hf, hlen, htl⟩ := hr
  refine ⟨?_, ?_, ?_⟩
  · exact Seg.cons (List.get?_concat_length _ _) (seg_extend hf)
  · show s._len + 1 = ids.length + 1
    omega
  · show (if s.tail = none then some s.heap.length else s.tail)
      = (s.heap.length :: ids).getLast?
    rcases ids with _ | ⟨a, t⟩
    · rw [htl]
      rfl
    · have hne : s.tail ≠ none := by
        rw [htl, Ne, List.getLast?_eq_none_iff]
        simp
      rw [if_neg hne, htl, List.getLast?_cons_cons]

theorem iter_prepend {s : SinglyLinkedList α} {ids : List Nat}
    (hr : Rep s ids) (v : α) : iter (s.prepend v) = v :: iter s := by
  rw [rep_iter (rep_prepend hr v), rep_iter hr]
  show chainVals (s.heap ++ [⟨v, s.head⟩]) (s.heap.length :: ids)
    = v :: chainVals s.heap ids
  have hv : valueAt (s.heap ++ [⟨v, s.head⟩]) s.heap.length = some v := by
    unfold valueAt
    rw [List.get?_concat_length]
    rfl
  show List.filterMap _ (s.heap.length :: ids) = _
  rw [List.filterMap_cons, hv]
  have := chainVals_extend (g := [(⟨v, s.head⟩ : LNode α)]) hr.1
  unfold chainVals at this
  rw [this]
  rfl

theorem append_tail_none {s : SinglyLinkedList α} (v : α)
    (hideq : s.tail = none) :
    s.append v = { heap := s.heap ++ [⟨v, none⟩], head := some s.heap.length,
                   tail := some s.heap.length, _len := s._len + 1 } := by
  unfold append
  rw [hideq]

theorem append_tail_some {s : SinglyLinkedList α} (v : α) {t : Nat}
    (hideq : s.tail = some t) :
    s.append v = { heap := updNext (s.heap ++ [⟨v, none⟩]) t (some s.heap.length)
                 , head := s.head
                 , tail := some s.heap.length
                 , _len := s._len + 1 } := by
  unfold append
  rw [hideq]

theorem rep_append {s : SinglyLinkedList α} {ids : List Nat}
    (hr : Rep s ids) (v : α) : Rep (s.append v) (ids ++ [s.heap.length]) := by
  obtain ⟨hf, hlen, htl⟩ := hr
  cases hideq : s.tail with
  | none =>
    have hids : ids = [] := by
      rw [hideq] at htl
      exact List.getLast?_eq_none_iff.mp htl.symm
    subst hids
    have hhead : s.head = none := follows_nil_inv hf
    rw [append_tail_none v hideq]
    refine ⟨?_, by simp [hlen], by simp⟩
    show Seg _ (some s.heap.length) [s.heap.length] none
    exact Seg.cons (List.get?_concat_length _ _) (Seg.nil none)
  | some t =>
    obtain ⟨init, hinit⟩ := List.getLast?_eq_some_iff.mp (hideq ▸ htl.symm)
    subst hinit
    have hnd := follows_nodup hf
    have htmem : t ∉ init := by
      intro hmem
      exact List.disjoint_of_nodup_append hnd hmem (List.mem_singleton_self t)
    obtain ⟨q, hseg1, hseg2⟩ := seg_split hf
    have hq : q = some t := by
      cases hseg2
      rfl
    subst hq
    have htn : ∃ tn : LNode α, s.heap.get? t = some tn ∧ tn.next = none := by
      cases hseg2 with
      | cons hg htail =>
        exact ⟨_, hg, follows_nil_inv htail⟩
    obtain ⟨tn, htg, htnext⟩ := htn
    have htlt : t < s.heap.length := (List.get?_eq_some.mp htg).1
    rw [append_tail_some v hideq]
    have hg1 : (s.heap ++ [(⟨v, none⟩ : LNode α)]).get? t = some tn := by
      rw [List.get?_append htlt]
      exact htg
    have hgupd : (updNext (s.heap ++ [⟨v, none⟩]) t (some s.heap.length)).get? t
        = some { tn with next := some s.heap.length } := by
      rw [get?_updNext, if_pos rfl, hg1]
      rfl
    have hgm : (updNext (s.heap ++ [⟨v, none⟩]) t (some s.heap.length)).get?
        s.heap.length = some ⟨v, none⟩ := by
      rw [get?_updNext, if_neg (by omega), List.get?_concat_length]
    refine ⟨?_, ?_, ?_⟩
    · have hs1 : Seg (updNext (s.heap ++ [⟨v, none⟩]) t (some s.heap.length))
          s.head init (some t) := by
        exact seg_updNext_outside htmem (seg_extend hseg1)
      have hs2 : Seg (updNext (s.heap ++ [⟨v, none⟩]) t (some s.heap.length))
          (some t) [t] (some s.heap.length) :=
        Seg.cons hgupd (Seg.nil _)
      have hs3 : Seg (updNext (s.heap ++ [⟨v, none⟩]) t (some s.heap.length))
          (some s.heap.length) [s.heap.length] none :=
        Seg.cons hgm (Seg.nil _)
      have := seg_append (seg_append hs1 hs2) hs3
      simpa using this
    · show s._len + 1 = _
      simp [hlen]
    · show some s.heap.length = _
      exact (List.getLast?_concat _).symm

theorem chainVals_cons {h : List (LNode α)} {i : Nat} {n : LNode α}
    (hg : h.get? i = some n) (l : List Nat) :
    chainVals h (i :: l) = n.value :: chainVals h l := by
  unfold chainVals valueAt
  rw [List.filterMap_cons, hg]
  rfl

theorem follows_cons_inv {h : List (LNode α)} {p : Option Nat} {i : Nat}
    {l : List Nat} (hf : Follows h p (i :: l)) :
    p = some i ∧ ∃ n, h.get? i = some n ∧ Follows h n.next l := by
  cases hf with
  | cons hg htail => exact ⟨rfl, _, hg, htail⟩

theorem tail_lt_of_rep {s : SinglyLinkedList α} {ids : List Nat} {t : Nat}
    (hr : Rep s ids) (hideq : s.tail = some t) : t < s.heap.length := by
  obtain ⟨init, hinit⟩ := List.getLast?_eq_some_iff.mp (hideq ▸ hr.2.2.symm)
  exact seg_mem_lt hr.1 (hinit ▸ List.mem_append_right init (List.mem_singleton_self t))

theorem iter_append {s : SinglyLinkedList α} {ids : List Nat}
    (hr : Rep s ids) (v : α) : iter (s.append v) = iter s ++ [v] := by
  have hr' := rep_append hr v
  rw [rep_iter hr', rep_iter hr, chainVals_append]
  have hvals : chainVals (s.append v).heap ids = chainVals s.heap ids := by
    cases hideq : s.tail with
    | none =>
      rw [append_tail_none v hideq]
      exact chainVals_extend hr.1
    | some t =>
      rw [append_tail_some v hideq]
      show chainVals (updNext _ _ _) ids = _
      rw [chainVals_updNext]
      exact chainVals_extend hr.1
  have hm : chainVals (s.append v).heap [s.heap.length] = [v] := by
    cases hideq : s.tail with
    | none =>
      rw [append_tail_none v hideq]
      exact chainVals_cons (List.get?_concat_length _ _) []
    | some t =>
      have htlt := tail_lt_of_rep hr hideq
      have hgm : (updNext (s.heap ++ [(⟨v, none⟩ : LNode α)]) t
          (some s.heap.length)).get? s.heap.length = some ⟨v, none⟩ := by
        rw [get?_updNext, if_neg (by omega), List.get?_concat_length]
      rw [append_tail_some v hideq]
      exact chainVals_cons hgm []
  rw [hvals, hm]

theorem pop_left_empty {s : SinglyLinkedList α} (hr : Rep s []) :
    s.pop_left = .error .emptyContainer := by
  have hhead := follows_nil_inv hr.1
  simp only [pop_left, hhead]

theorem pop_left_cons {s : SinglyLinkedList α} {i : Nat} {rest : List Nat}
    (hr : Rep s (i :: rest)) :
    ∃ n : LNode α, s.heap.get? i = some n ∧
      s.pop_left = .ok (n.value,
        { heap := s.heap, head := n.next,
          tail := if n.next = none then none else s.tail,
          _len := s._len - 1 }) ∧
      Rep { heap := s.heap, head := n.next,
            tail := if n.next = none then none else s.tail,
            _len := s._len - 1 } rest := by
  obtain ⟨hf, hlen, htl⟩ := hr
  obtain ⟨hhead, n, hg, htail⟩ := follows_cons_inv hf
  refine ⟨n, hg, ?_, ?_⟩
  · simp only [pop_left, hhead, hg]
  · refine ⟨htail, by simp [hlen], ?_⟩
    show (if n.next = none then none else s.tail) = rest.getLast?
    cases hrest : rest with
    | nil =>
      have hnone : n.next = none := follows_nil_inv (hrest ▸ htail)
      rw [hnone]
      rfl
    | cons a u =>
      have hsome : n.next = some a := (follows_cons_inv (hrest ▸ htail)).1
      rw [hsome, if_neg (by simp), htl, hrest, List.getLast?_cons_cons]

theorem seg_nil_inv {h : List (LNode α)} {p q : Option Nat}
    (hs : Seg h p [] q) : p = q := by
  cases hs
  rfl

theorem node_at_err {s : SinglyLinkedList α} {index : Int}
    (hcond : index < 0 ∨ (s._len : Int) ≤ index) :
    node_at s index = .error .indexOutOfRange := by
  unfold node_at
  rw [if_pos hcond]

theorem node_at_ok {s : SinglyLinkedList α} {ids : List Nat} (hr : Rep s ids)
    {index : Int} (hge : 0 ≤ index) (hlt : index < (s._len : Int)) :
    ∃ j, ids.get? index.toNat = some j ∧ node_at s index = .ok j := by
  have hbound : index.toNat < ids.length := by
    have := hr.2.1
    omega
  obtain ⟨j, hj⟩ : ∃ j, ids.get? index.toNat = some j :=
    ⟨_, List.get?_eq_get hbound⟩
  refine ⟨j, hj, ?_⟩
  have hcond : ¬(index < 0 ∨ (s._len : Int) ≤ index) := by omega
  unfold node_at
  rw [if_neg hcond, walkN_eq_get? hr.1, hj]

theorem chainVals_get? {h : List (LNode α)} {p q : Option Nat} {l : List Nat}
    (hs : Seg h p l q) (k : Nat) :
    (chainVals h l).get? k = (l.get? k).bind (fun i => valueAt h i) := by
  induction hs generalizing k with
  | nil _ => rfl
  | @cons i n t r hg _ ih =>
    cases k with
    | zero =>
      rw [chainVals_cons hg]
      show some n.value = (some i).bind (fun i => valueAt h i)
      have hg2 : h[i]? = some n := by
        rw [← List.get?_eq_getElem?]
        exact hg
      simp [valueAt, hg2]
    | succ k =>
      rw [chainVals_cons hg]
      show (chainVals h t).get? k = _
      exact ih k

theorem get_ok {s : SinglyLinkedList α} {ids : List Nat} (hr : Rep s ids)
    {index : Int} (hge : 0 ≤ index) (hlt : index < (s._len : Int)) :
    ∃ w, (iter s).get? index.toNat = some w ∧ get s index = .ok w := by
  obtain ⟨j, hj, hna⟩ := node_at_ok hr hge hlt
  have hjmem : j ∈ ids := List.get?_mem hj
  obtain ⟨t, hsuf, hfol⟩ := follows_mem_suffix hr.1 hjmem
  obtain ⟨_, n, hg, _⟩ := follows_cons_inv hfol
  refine ⟨n.value, ?_, ?_⟩
  · rw [rep_iter hr, chainVals_get? hr.1, hj]
    have hg2 : s.heap[j]? = some n := by
      rw [← List.get?_eq_getElem?]
      exact hg
    simp [valueAt, hg2]
  · simp only [get, hna, hg]

theorem get_err {s : SinglyLinkedList α} {index : Int}
    (hcond : index < 0 ∨ (s._len : Int) ≤ index) :
    get s index = .error .indexOutOfRange := by
  simp only [get, node_at_err hcond]

theorem set_err {s : SinglyLinkedList α} {index : Int} (v : α)
    (hcond : index < 0 ∨ (s._len : Int) ≤ index) :
    set s index v = .error .indexOutOfRange := by
  simp only [set, node_at_err hcond]

theorem valueAt_updValue_self {h : List (LNode α)} {j : Nat} {n : LNode α}
    (hg : h.get? j = some n) (v : α) : valueAt (updValue h j v) j = some v := by
  unfold valueAt
  rw [get?_updValue, if_pos rfl, hg]
  rfl

theorem valueAt_updValue_ne {h : List (LNode α)} {i j : Nat} (hij : i ≠ j)
    (v : α) : valueAt (updValue h j v) i = valueAt h i := by
  unfold valueAt
  rw [get?_updValue, if_neg hij]

theorem chainVals_updValue {h : List (LNode α)} {p q : Option Nat}
    {l : List Nat} (hs : Seg h p l q) (hnd : l.Nodup) {k j : Nat}
    (hj : l.get? k = some j) (v : α) :
    chainVals (updValue h j v) l = (chainVals h l).set k v := by
  induction hs generalizing k with
  | nil _ => cases hj
  | @cons i n t r hg _ ih =>
    obtain ⟨hnotmem, hndt⟩ := List.nodup_cons.mp hnd
    cases k with
    | zero =>
      have hij : i = j := by
        have : some i = some j := hj
        exact Option.some_injective _ this
      subst hij
      have hg2 : (updValue h i v).get? i = some { n with value := v } := by
        rw [get?_updValue, if_pos rfl, hg]
        rfl
      rw [chainVals_cons hg2, chainVals_cons hg]
      show v :: chainVals (updValue h i v) t = v :: chainVals h t
      rw [chainVals_congr (fun m hm =>
        valueAt_updValue_ne (fun hcon => hnotmem (by rw [← hcon]; exact hm)) v)]
    | succ k =>
      have hjt : j ∈ t := List.get?_mem hj
      have hij : i ≠ j := fun hcon => hnotmem (hcon ▸ hjt)
      have hg2 : (updValue h j v).get? i = some n := by
        rw [get?_updValue, if_neg hij]
        exact hg
      rw [chainVals_cons hg2, chainVals_cons hg]
      show n.value :: chainVals (updValue h j v) t
        = (n.value :: chainVals h t).set (k + 1) v
      rw [ih hndt hj]
      rfl

theorem set_ok {s : SinglyLinkedList α} {ids : List Nat} (hr : Rep s ids)
    {index : Int} (v : α) (hge : 0 ≤ index) (hlt : index < (s._len : Int)) :
    ∃ j, ids.get? index.toNat = some j ∧
      set s index v = .ok { s with heap := updValue s.heap j v } ∧
      Rep { s with heap := updValue s.heap j v } ids ∧
      iter { s with heap := updValue s.heap j v } = (iter s).set index.toNat v := by
  obtain ⟨j, hj, hna⟩ := node_at_ok hr hge hlt
  have hrep : Rep { s with heap := updValue s.heap j v } ids :=
    ⟨seg_updValue hr.1, hr.2.1, hr.2.2⟩
  refine ⟨j, hj, ?_, hrep, ?_⟩
  · simp only [set, hna]
  · rw [rep_iter hrep, rep_iter hr]
    exact chainVals_updValue hr.1 (follows_nodup hr.1) hj v

theorem seg_cons_inv {h : List (LNode α)} {p q : Option Nat} {i : Nat}
    {l : List Nat} (hs : Seg h p (i :: l) q) :
    p = some i ∧ ∃ n, h.get? i = some n ∧ Seg h n.next l q := by
  cases hs with
  | cons hg ht => exact ⟨rfl, _, hg, ht⟩

theorem insert_err {s : SinglyLinkedList α} {index : Int} (v : α)
    (hcond : index < 0 ∨ (s._len : Int) < index) :
    insert s index v = .error .indexOutOfRange := by
  unfold insert
  rw [if_pos hcond]

theorem insert_zero (s : SinglyLinkedList α) (v : α) :
    insert s 0 v = .ok (s.prepend v) := by
  unfold insert
  rw [if_neg (by omega), if_pos rfl]

theorem insert_len {s : SinglyLinkedList α} {ids : List Nat} (hr : Rep s ids)
    (v : α) : insert s (s._len : Int) v = .ok (s.append v) := by
  by_cases hz : s._len = 0
  · have hids : ids = [] := List.length_eq_zero.mp (by rw [← hr.2.1]; exact hz)
    have hhead : s.head = none := follows_nil_inv (hids ▸ hr.1)
    have htail : s.tail = none := by
      rw [hr.2.2, hids]
      rfl
    unfold insert
    rw [hz]
    rw [if_neg (by omega), if_pos (by omega)]
    rw [append_tail_none v htail]
    unfold prepend
    rw [hhead, htail]
    simp
  · unfold insert
    rw [if_neg (by omega), if_neg (by omega), if_pos rfl]

theorem insert_mid_eq {s : SinglyLinkedList α} {index : Int} {j : Nat}
    {pn : LNode α} (v : α) (hc1 : ¬(index < 0 ∨ (s._len : Int) < index))
    (hc2 : ¬(index = 0)) (hc3 : ¬(index = (s._len : Int)))
    (hna : node_at s (index - 1) = .ok j) (hg : s.heap.get? j = some pn) :
    insert s index v =
      .ok { heap := updNext (s.heap ++ [⟨v, pn.next⟩]) j (some s.heap.length)
          , head := s.head, tail := s.tail, _len := s._len + 1 } := by
  unfold insert
  rw [if_neg hc1, if_neg hc2, if_neg hc3]
  simp only [hna, hg]

theorem insert_mid {s : SinglyLinkedList α} {ids : List Nat} (hr : Rep s ids)
    {index : Int} (v : α) (h0 : 0 < index) (hlen : index < (s._len : Int)) :
    ∃ s', insert s index v = .ok s' ∧
      Rep s' (ids.take index.toNat ++ s.heap.length :: ids.drop index.toNat) ∧
      iter s' = (iter s).take index.toNat ++ v :: (iter s).drop index.toNat := by
  obtain ⟨hf, hlens, htl⟩ := hr
  have hr : Rep s ids := ⟨hf, hlens, htl⟩
  obtain ⟨j, hj, hna⟩ := @node_at_ok α s ids hr (index - 1) (by omega) (by omega)
  have hk1 : (index - 1).toNat = index.toNat - 1 := by omega
  rw [hk1] at hj
  have hkn1 : 1 ≤ index.toNat := by omega
  have hknlt : index.toNat < ids.length := by omega
  have htake : ids.take index.toNat = ids.take (index.toNat - 1) ++ [j] := by
    have h1 : index.toNat = (index.toNat - 1) + 1 := by omega
    rw [h1, List.take_succ, ← List.get?_eq_getElem?, hj]
    rfl
  have hf2 : Seg s.heap s.head (ids.take index.toNat ++ ids.drop index.toNat)
      none := by
    rw [List.take_append_drop]
    exact hf
  obtain ⟨q₁, hseg1, hseg2⟩ := seg_split hf2
  have hyslen : (ids.drop index.toNat).length = ids.length - index.toNat :=
    List.length_drop _ _
  cases hys : ids.drop index.toNat with
  | nil =>
    rw [hys] at hyslen
    simp at hyslen
    omega
  | cons c ys =>
    rw [← hys]
    rw [hys] at hseg2
    obtain ⟨hq₁, _⟩ := seg_cons_inv hseg2
    have hseg1' : Seg s.heap s.head (ids.take (index.toNat - 1) ++ [j]) q₁ := by
      rw [← htake]
      exact hseg1
    obtain ⟨q₀, hsegA, hsegB⟩ := seg_split hseg1'
    obtain ⟨hq₀, pn, hg, hrest⟩ := seg_cons_inv hsegB
    have hpnext : pn.next = q₁ := seg_nil_inv hrest
    have hjlt : j < s.heap.length := (List.get?_eq_some.mp hg).1
    have hnd : ids.Nodup := follows_nodup hf
    have hnd2 : (ids.take index.toNat ++ ids.drop index.toNat).Nodup := by
      rw [List.take_append_drop]
      exact hnd
    obtain ⟨hndxs, hndys, hdisj⟩ := List.nodup_append.mp hnd2
    have hjxs : j ∈ ids.take index.toNat := by
      rw [htake]
      exact List.mem_append_right _ (List.mem_singleton_self j)
    have hjys : j ∉ ids.drop index.toNat := fun hmem => hdisj hjxs hmem
    have hjxs' : j ∉ ids.take (index.toNat - 1) := by
      rw [htake] at hndxs
      intro hmem
      exact List.disjoint_of_nodup_append hndxs hmem (List.mem_singleton_self j)
    have hins := insert_mid_eq (s := s) v (by omega) (by omega) (by omega) hna hg
    have hgupd : (updNext (s.heap ++ [(⟨v, pn.next⟩ : LNode α)]) j
        (some s.heap.length)).get? j
        = some { pn with next := some s.heap.length } := by
      rw [get?_updNext, if_pos rfl, List.get?_append hjlt, hg]
      rfl
    have hgm : (updNext (s.heap ++ [(⟨v, pn.next⟩ : LNode α)]) j
        (some s.heap.length)).get? s.heap.length = some ⟨v, pn.next⟩ := by
      rw [get?_updNext, if_neg (by omega), List.get?_concat_length]
    have hA : Seg (updNext (s.heap ++ [(⟨v, pn.next⟩ : LNode α)]) j
        (some s.heap.length)) s.head (ids.take (index.toNat - 1)) q₀ :=
      seg_updNext_outside hjxs' (seg_extend hsegA)
    have hB : Seg (updNext (s.heap ++ [(⟨v, pn.next⟩ : LNode α)]) j
        (some s.heap.length)) q₀ [j] (some s.heap.length) := by
      rw [hq₀]
      exact Seg.cons hgupd (Seg.nil _)
    have hC : Seg (updNext (s.heap ++ [(⟨v, pn.next⟩ : LNode α)]) j
        (some s.heap.length)) (some s.heap.length) [s.heap.length] q₁ := by
      refine Seg.cons hgm ?_
      show Seg _ pn.next [] q₁
      rw [hpnext]
      exact Seg.nil _
    have hD : Seg (updNext (s.heap ++ [(⟨v, pn.next⟩ : LNode α)]) j
        (some s.heap.length)) q₁ (ids.drop index.toNat) none := by
      refine seg_updNext_outside hjys (seg_extend ?_)
      rw [hys]
      exact hseg2
    have hfol' : Follows (updNext (s.heap ++ [(⟨v, pn.next⟩ : LNode α)]) j
        (some s.heap.length)) s.head
        (ids.take index.toNat ++ s.heap.length :: ids.drop index.toNat) := by
      have hcomp := seg_append (seg_append (seg_append hA hB) hC) hD
      rw [← htake] at hcomp
      show Seg _ _ _ _
      have hsh : ids.take index.toNat ++ s.heap.length :: ids.drop index.toNat
          = (ids.take index.toNat ++ [s.heap.length]) ++ ids.drop index.toNat := by
        simp
      rw [hsh]
      exact hcomp
    have hrep' : Rep ⟨updNext (s.heap ++ [(⟨v, pn.next⟩ : LNode α)]) j (some s.heap.length), s.head, s.tail, s._len + 1⟩
        (ids.take index.toNat ++ s.heap.length :: ids.drop index.toNat) := by
      refine ⟨hfol', ?_, ?_⟩
      · show s._len + 1 = _
        rw [List.length_append, List.length_take]
        simp only [List.length_cons]
        rw [hys]
        simp only [List.length_cons]
        rw [hys] at hyslen
        simp only [List.length_cons] at hyslen
        omega
      · show s.tail = _
        rw [htl]
        conv_lhs => rw [← List.take_append_drop index.toNat ids]
        rw [List.getLast?_append, List.getLast?_append, hys,
          List.getLast?_cons_cons]
    refine ⟨_, hins, hrep', ?_⟩
    rw [rep_iter hrep', rep_iter hr]
    have hvals : ∀ i ∈ ids, valueAt (updNext (s.heap ++ [(⟨v, pn.next⟩ : LNode α)]) j
        (some s.heap.length)) i = valueAt s.heap i := by
      intro i hi
      rw [valueAt_updNext]
      exact valueAt_append_left (seg_mem_lt hf hi)
    show chainVals _ (ids.take index.toNat ++ s.heap.length :: ids.drop index.toNat)
      = _
    rw [chainVals_append]
    rw [chainVals_cons hgm]
    rw [chainVals_congr (fun i hi => hvals i (List.take_subset _ _ hi))]
    rw [chainVals_congr (fun i hi => hvals i (List.drop_subset _ _ hi))]
    have hiterid : chainVals s.heap ids
        = chainVals s.heap (ids.take index.toNat)
          ++ chainVals s.heap (ids.drop index.toNat) := by
      conv_lhs => rw [← List.take_append_drop index.toNat ids]
      rw [chainVals_append]
    rw [hiterid]
    have hlentake : (chainVals s.heap (ids.take index.toNat)).length
        = index.toNat := by
      rw [seg_chainVals_length hseg1, List.length_take]
      omega
    rw [List.take_left' hlentake, List.drop_left' hlentake]

theorem findPrev_spec {h : List (LNode α)} {t : Nat} (l : List Nat) :
    ∀ (a fuel : Nat), Seg h (some a) (a :: (l ++ [t])) none →
      (a :: (l ++ [t])).Nodup → l.length < fuel →
      ∃ pl, findPrev h (some t) fuel a = some pl ∧
        (a :: l).getLast? = some pl := by
  induction l with
  | nil =>
    intro a fuel hs hnd hfuel
    obtain ⟨_, n, hg, hrest⟩ := seg_cons_inv hs
    obtain ⟨hnext, _⟩ := seg_cons_inv hrest
    cases fuel with
    | zero => omega
    | succ f =>
      refine ⟨a, ?_, rfl⟩
      simp only [findPrev, hg]
      rw [hnext, if_pos rfl]
  | cons b l' ih =>
    intro a fuel hs hnd hfuel
    obtain ⟨_, n, hg, hrest⟩ := seg_cons_inv hs
    obtain ⟨hnext, _⟩ := seg_cons_inv hrest
    have hbt : b ≠ t := by
      have hnd2 := (List.nodup_cons.mp hnd).2
      have hb : b ∉ l' ++ [t] := (List.nodup_cons.mp hnd2).1
      intro hcon
      refine hb ?_
      rw [hcon]
      exact List.mem_append_right l' (List.mem_singleton_self t)
    cases fuel with
    | zero => omega
    | succ f =>
      have hnd2 : (b :: (l' ++ [t])).Nodup := (List.nodup_cons.mp hnd).2
      rw [hnext] at hrest
      obtain ⟨pl, hfp, hlast⟩ := ih b f hrest hnd2 (by
        simp at hfuel ⊢
        omega)
      refine ⟨pl, ?_, ?_⟩
      · simp only [findPrev, hg]
        rw [hnext, if_neg (by simp [hbt])]
        exact hfp
      · rw [List.getLast?_cons_cons]
        exact hlast

theorem pop_empty {s : SinglyLinkedList α} (hr : Rep s []) :
    s.pop = .error .emptyContainer := by
  have hhead := follows_nil_inv hr.1
  simp only [pop, hhead]

theorem pop_single {s : SinglyLinkedList α} {i : Nat} (hr : Rep s [i]) :
    ∃ n, s.heap.get? i = some n ∧
      s.pop = .ok (n.value, { s with head := none, tail := none, _len := s._len - 1 }) ∧
      Rep { s with head := none, tail := none, _len := s._len - 1 } [] := by
  obtain ⟨hf, hlen, htl⟩ := hr
  obtain ⟨hhead, n, hg, _⟩ := follows_cons_inv hf
  have htl' : s.tail = some i := htl
  refine ⟨n, hg, ?_, Seg.nil none, by simp at hlen ⊢; omega, rfl⟩
  simp only [pop, hhead, htl', if_true, hg]

theorem pop_two {s : SinglyLinkedList α} {a t : Nat} {l : List Nat}
    (hr : Rep s (a :: (l ++ [t]))) :
    ∃ pl tn, (a :: l).getLast? = some pl ∧ s.heap.get? t = some tn ∧
      s.pop = .ok (tn.value,
        ⟨updNext s.heap pl none, s.head, some pl, s._len - 1⟩) ∧
      Rep (⟨updNext s.heap pl none, s.head, some pl, s._len - 1⟩ :
        SinglyLinkedList α) (a :: l) ∧
      iter (⟨updNext s.heap pl none, s.head, some pl, s._len - 1⟩ :
        SinglyLinkedList α) = (iter s).dropLast ∧
      (iter s).getLast? = some tn.value := by
  obtain ⟨hf, hlen, htl⟩ := hr
  have hr : Rep s (a :: (l ++ [t])) := ⟨hf, hlen, htl⟩
  obtain ⟨hhead, n, hg, htail⟩ := follows_cons_inv hf
  have htl' : s.tail = some t := by
    rw [htl]
    show ((a :: l) ++ [t]).getLast? = some t
    exact List.getLast?_concat _
  have hnd : (a :: (l ++ [t])).Nodup := follows_nodup hf
  have hat : a ≠ t := by
    have ha : a ∉ l ++ [t] := (List.nodup_cons.mp hnd).1
    intro hcon
    refine ha ?_
    rw [hcon]
    exact List.mem_append_right l (List.mem_singleton_self t)
  have hfa : Seg s.heap (some a) (a :: (l ++ [t])) none := by
    rw [← hhead]
    exact hf
  obtain ⟨pl, hfp, hlast⟩ := findPrev_spec l a s._len hfa hnd (by simp at hlen ⊢; omega)
  -- decompose the front chain at its last node pl
  obtain ⟨front, hfront⟩ := List.getLast?_eq_some_iff.mp hlast
  have hsplitf : Seg s.heap s.head ((a :: l) ++ [t]) none := hf
  obtain ⟨q₂, hseg1, hseg2⟩ := seg_split hsplitf
  have hq₂ : q₂ = some t := (seg_cons_inv hseg2).1
  obtain ⟨_, tn, htg, htrest⟩ := seg_cons_inv hseg2
  have hseg1' : Seg s.heap s.head (front ++ [pl]) q₂ := by
    rw [← hfront]
    exact hseg1
  obtain ⟨q₀, hsegF, hsegP⟩ := seg_split hseg1'
  obtain ⟨hq₀, pln, hpg, hpr⟩ := seg_cons_inv hsegP
  have hplnext : pln.next = q₂ := seg_nil_inv hpr
  have hndal : (a :: l).Nodup := by
    have := List.nodup_append.mp (show ((a :: l) ++ [t]).Nodup from hnd)
    exact this.1
  have hplf : pl ∉ front := by
    rw [hfront] at hndal
    intro hmem
    exact List.disjoint_of_nodup_append hndal hmem (List.mem_singleton_self pl)
  have hgupd : (updNext s.heap pl none).get? pl = some { pln with next := none } := by
    rw [get?_updNext, if_pos rfl, hpg]
    rfl
  have hfol' : Follows (updNext s.heap pl none) s.head (a :: l) := by
    have hA : Seg (updNext s.heap pl none) s.head front q₀ :=
      seg_updNext_outside hplf hsegF
    have hB : Seg (updNext s.heap pl none) q₀ [pl] none := by
      rw [hq₀]
      exact Seg.cons hgupd (Seg.nil _)
    have := seg_append hA hB
    rw [← hfront] at this
    exact this
  have hrep' : Rep (⟨updNext s.heap pl none, s.head, some pl, s._len - 1⟩ :
      SinglyLinkedList α) (a :: l) := by
    refine ⟨hfol', ?_, ?_⟩
    · show s._len - 1 = _
      simp at hlen ⊢
      omega
    · exact hlast.symm
  refine ⟨pl, tn, hlast, htg, ?_, hrep', ?_, ?_⟩
  · simp only [pop, hhead, htl']
    rw [if_neg (by simp [hat]), hfp]
    simp only [htg]
  · rw [rep_iter hrep', rep_iter hr]
    rw [chainVals_congr (fun i _ => valueAt_updNext s.heap pl none i)]
    show chainVals s.heap (a :: l) = (chainVals s.heap ((a :: l) ++ [t])).dropLast
    rw [chainVals_append, chainVals_cons htg]
    show _ = (chainVals s.heap (a :: l) ++ [tn.value]).dropLast
    rw [List.dropLast_concat]
  · rw [rep_iter hr]
    show (chainVals s.heap ((a :: l) ++ [t])).getLast? = _
    rw [chainVals_append, chainVals_cons htg]
    show (chainVals s.heap (a :: l) ++ [tn.value]).getLast? = _
    rw [List.getLast?_concat]

theorem lastO_cons (a : Nat) (l : List Nat) (p : Option Nat) :
    lastO (a :: l) p = lastO l (some a) := by
  cases l with
  | nil => rfl
  | cons b t =>
    have hne : (b :: t).getLast? ≠ none := by
      rw [Ne, List.getLast?_eq_none_iff]
      simp
    obtain ⟨x, hx⟩ := Option.ne_none_iff_exists'.mp hne
    unfold lastO
    rw [List.getLast?_cons_cons, hx]

theorem value_mem_chainVals {h : List (LNode α)} {l : List Nat} {i : Nat}
    {n : LNode α} (hi : i ∈ l) (hg : h.get? i = some n) :
    n.value ∈ chainVals h l := by
  refine List.mem_filterMap.mpr ⟨i, hi, ?_⟩
  unfold valueAt
  rw [hg]
  rfl

theorem removeLoop_not_found [DecidableEq α] {h : List (LNode α)} {v : α}
    {l : List Nat} :
    ∀ {p prev hd tl : Option Nat} {fuel : Nat}, Seg h p l none →
      (∀ i ∈ l, ∀ n : LNode α, h.get? i = some n → n.value ≠ v) →
      l.length ≤ fuel →
      removeLoop v fuel h hd tl prev p = some (false, h, hd, tl) := by
  induction l with
  | nil =>
    intro p prev hd tl fuel hs _ _
    rw [seg_nil_inv hs]
    cases fuel <;> rfl
  | cons i t ih =>
    intro p prev hd tl fuel hs hnm hfuel
    obtain ⟨hp, n, hg, hrest⟩ := seg_cons_inv hs
    subst hp
    cases fuel with
    | zero => simp at hfuel
    | succ f =>
      have hne : ¬(n.value = v) := hnm i (List.mem_cons_self _ _) n hg
      simp only [removeLoop, hg]
      rw [if_neg hne]
      exact ih hrest (fun j hj => hnm j (List.mem_cons_of_mem _ hj)) (by
        simp at hfuel ⊢
        omega)

theorem removeLoop_found [DecidableEq α] {h : List (LNode α)} {v : α}
    (as : List Nat) :
    ∀ {p prev hd tl : Option Nat} {fuel : Nat} {c : Nat} {bs : List Nat}
      {cn : LNode α},
      Seg h p (as ++ c :: bs) none →
      (∀ i ∈ as, ∀ n : LNode α, h.get? i = some n → n.value ≠ v) →
      h.get? c = some cn → cn.value = v →
      (as ++ c :: bs).length ≤ fuel →
      removeLoop v fuel h hd tl prev p =
        some (true,
          (match lastO as prev with
           | none => h
           | some p2 => updNext h p2 cn.next),
          (match lastO as prev with
           | none => cn.next
           | some _ => hd),
          (if some c = tl then lastO as prev else tl)) := by
  induction as with
  | nil =>
    intro p prev hd tl fuel c bs cn hs _ hcg hcv hfuel
    obtain ⟨hp, n, hg, _⟩ := seg_cons_inv hs
    subst hp
    rw [hcg] at hg
    cases hg
    cases fuel with
    | zero => simp at hfuel
    | succ f =>
      simp only [removeLoop, hcg]
      rw [if_pos hcv]
      cases prev <;> rfl
  | cons a as₀ ih =>
    intro p prev hd tl fuel c bs cn hs hnm hcg hcv hfuel
    obtain ⟨hp, n, hg, hrest⟩ := seg_cons_inv hs
    subst hp
    cases fuel with
    | zero => simp at hfuel
    | succ f =>
      have hne : ¬(n.value = v) := hnm a (List.mem_cons_self _ _) n hg
      simp only [removeLoop, hg]
      rw [if_neg hne]
      rw [ih hrest (fun j hj => hnm j (List.mem_cons_of_mem _ hj)) hcg hcv (by
        simp at hfuel ⊢
        omega)]
      rw [lastO_cons]

theorem remove_not_found [DecidableEq α] {s : SinglyLinkedList α} {v : α}
    {ids : List Nat} (hr : Rep s ids) (hnm : v ∉ iter s) :
    s.remove v = some (false, s) := by
  have hnodes : ∀ i ∈ ids, ∀ n : LNode α, s.heap.get? i = some n →
      n.value ≠ v := by
    intro i hi n hg hcon
    refine hnm ?_
    rw [rep_iter hr, ← hcon]
    exact value_mem_chainVals hi hg
  unfold remove
  rw [removeLoop_not_found hr.1 hnodes (le_of_eq hr.2.1.symm)]
  rfl

theorem first_mem_split [DecidableEq α] {v : α} {l : List α} (hm : v ∈ l) :
    ∃ A B, l = A ++ v :: B ∧ v ∉ A := by
  induction l with
  | nil => cases hm
  | cons a t ih =>
    by_cases hav : a = v
    · exact ⟨[], t, by rw [hav]; rfl, by simp⟩
    · rcases List.mem_cons.mp hm with h1 | h2
      · exact absurd h1.symm hav
      · obtain ⟨A, B, hab, hnA⟩ := ih h2
        refine ⟨a :: A, B, by rw [hab]; rfl, ?_⟩
        simp only [List.mem_cons, not_or]
        exact ⟨fun hcon => hav hcon.symm, hnA⟩

theorem remove_found [DecidableEq α] {s : SinglyLinkedList α} {v : α}
    {ids : List Nat} (hr : Rep s ids) {A B : List α}
    (hsplit : iter s = A ++ v :: B) (hvA : v ∉ A) :
    ∃ s', s.remove v = some (true, s') ∧
      Rep s' (ids.take A.length ++ ids.drop (A.length + 1)) ∧
      iter s' = A ++ B ∧ s'._len = s._len - 1 := by
  obtain ⟨hf, hlen, htl⟩ := hr
  have hr : Rep s ids := ⟨hf, hlen, htl⟩
  have hnd : ids.Nodup := follows_nodup hf
  have hiter : chainVals s.heap ids = A ++ v :: B := by
    rw [← rep_iter hr]
    exact hsplit
  have hlens : ids.length = A.length + 1 + B.length := by
    have h1 := seg_chainVals_length hf
    rw [hiter] at h1
    simp at h1
    omega
  have hklt : A.length < ids.length := by omega
  cases hdrop : ids.drop A.length with
  | nil =>
    have := List.length_drop A.length ids
    rw [hdrop] at this
    simp at this
    omega
  | cons c rest =>
    have htdlen : (ids.take A.length).length = A.length := by
      rw [List.length_take]
      omega
    have hidseq : ids = ids.take A.length ++ c :: rest := by
      conv_lhs => rw [← List.take_append_drop A.length ids]
      rw [hdrop]
    have hdrop1 : ids.drop (A.length + 1) = rest := by
      have h2 := List.drop_drop 1 A.length ids
      rw [hdrop] at h2
      rw [← h2]
      rfl
    have hf2 : Seg s.heap s.head (ids.take A.length ++ c :: rest) none := by
      rw [← hidseq]
      exact hf
    obtain ⟨q₁, hseg1, hseg2⟩ := seg_split hf2
    obtain ⟨hq₁, cn, hcg, hcrest⟩ := seg_cons_inv hseg2
    have hvals2 : chainVals s.heap (ids.take A.length)
        ++ chainVals s.heap (c :: rest) = A ++ v :: B := by
      rw [← chainVals_append, ← hidseq]
      exact hiter
    have hcvlen : (chainVals s.heap (ids.take A.length)).length = A.length := by
      rw [seg_chainVals_length hseg1]
      exact htdlen
    obtain ⟨hA, hcB⟩ := List.append_inj hvals2 hcvlen
    rw [chainVals_cons hcg] at hcB
    have hcv : cn.value = v := (List.cons_eq_cons.mp hcB).1
    have hBv : chainVals s.heap rest = B := (List.cons_eq_cons.mp hcB).2
    have hnm : ∀ i ∈ ids.take A.length, ∀ n : LNode α,
        s.heap.get? i = some n → n.value ≠ v := by
      intro i hi n hg hcon
      refine hvA ?_
      rw [← hA, ← hcon]
      exact value_mem_chainVals hi hg
    have hloop := @removeLoop_found α _ s.heap v (ids.take A.length)
      s.head none s.head s.tail s._len c rest cn
      hf2 hnm hcg hcv (by rw [← hidseq]; omega)
    have hnd2 : (ids.take A.length ++ c :: rest).Nodup := by
      rw [← hidseq]
      exact hnd
    obtain ⟨hndtk, hndcr, hdisj⟩ := List.nodup_append.mp hnd2
    have hcrest' : c ∉ rest := (List.nodup_cons.mp hndcr).1
    have htailiff : (some c = s.tail) ↔ rest = [] := by
      constructor
      · intro hcs
        cases hrest : rest with
        | nil => rfl
        | cons r rs =>
          exfalso
          rw [htl, hidseq, hrest] at hcs
          rw [List.getLast?_append, List.getLast?_cons_cons] at hcs
          have hlmem : (r :: rs).getLast? = some ((r :: rs).getLast (by simp)) :=
            List.getLast?_eq_getLast _ _
          rw [hlmem] at hcs
          simp at hcs
          have hmem : (r :: rs).getLast (by simp) ∈ r :: rs := List.getLast_mem _
          rw [← hcs] at hmem
          rw [hrest] at hcrest'
          exact hcrest' hmem
      · intro hrest
        rw [htl, hidseq, hrest]
        exact (List.getLast?_concat _).symm
    cases htk : ids.take A.length with
    | nil =>
      rw [htk] at hloop
      have hAnil : A = [] := by
        rw [htk] at hA
        exact hA.symm
      refine ⟨⟨s.heap, cn.next,
        if some c = s.tail then none else s.tail, s._len - 1⟩, ?_, ?_, ?_, rfl⟩
      · unfold remove
        rw [hloop]
        rfl
      · rw [hdrop1]
        refine ⟨hcrest, ?_, ?_⟩
        · show s._len - 1 = _
          rw [hidseq, htk] at hlen
          simp at hlen ⊢
          omega
        · show (if some c = s.tail then none else s.tail) = _
          by_cases hrest : rest = []
          · rw [if_pos (htailiff.mpr hrest), hrest]
            rfl
          · rw [if_neg (fun hcon => hrest (htailiff.mp hcon)), htl, hidseq, htk]
            cases hr2 : rest with
            | nil => exact absurd hr2 hrest
            | cons r rs =>
              rw [List.nil_append, List.getLast?_cons_cons, List.nil_append]
      · have hrep2 : Rep (⟨s.heap, cn.next,
            if some c = s.tail then none else s.tail, s._len - 1⟩ :
            SinglyLinkedList α) ([] ++ rest) := by
          refine ⟨hcrest, ?_, ?_⟩
          · show s._len - 1 = _
            rw [hidseq, htk] at hlen
            simp at hlen ⊢
            omega
          · show (if some c = s.tail then none else s.tail) = _
            by_cases hrest : rest = []
            · rw [if_pos (htailiff.mpr hrest), hrest]
              rfl
            · rw [if_neg (fun hcon => hrest (htailiff.mp hcon)), htl, hidseq, htk]
              cases hr2 : rest with
              | nil => exact absurd hr2 hrest
              | cons r rs =>
                rw [List.nil_append, List.getLast?_cons_cons, List.nil_append]
        rw [rep_iter hrep2]
        show chainVals s.heap rest = A ++ B
        rw [hBv, hAnil]
        rfl
    | cons a as₀ =>
      have hplex : ∃ pl, (a :: as₀).getLast? = some pl := by
        refine Option.ne_none_iff_exists'.mp ?_
        rw [Ne, List.getLast?_eq_none_iff]
        simp
      obtain ⟨pl, hpl⟩ := hplex
      have hlastO : lastO (a :: as₀) none = some pl := by
        unfold lastO
        rw [hpl]
      obtain ⟨front, hfront⟩ := List.getLast?_eq_some_iff.mp hpl
      rw [htk] at hloop
      rw [hlastO] at hloop
      rw [htk, hfront] at hseg1
      obtain ⟨q₀, hsegF, hsegP⟩ := seg_split hseg1
      obtain ⟨hq₀, pln, hpg, hplrest⟩ := seg_cons_inv hsegP
      have hplnext : pln.next = q₁ := seg_nil_inv hplrest
      have hpltk : pl ∈ ids.take A.length := by
        rw [htk, hfront]
        exact List.mem_append_right _ (List.mem_singleton_self pl)
      have hplrest2 : pl ∉ rest := by
        intro hmem
        exact hdisj hpltk (List.mem_cons_of_mem _ hmem)
      have hplfront : pl ∉ front := by
        rw [htk, hfront] at hndtk
        intro hmem
        exact List.disjoint_of_nodup_append hndtk hmem (List.mem_singleton_self pl)
      have hgupd : (updNext s.heap pl cn.next).get? pl
          = some { pln with next := cn.next } := by
        rw [get?_updNext, if_pos rfl, hpg]
        rfl
      have hfol2 : Follows (updNext s.heap pl cn.next) s.head
          ((a :: as₀) ++ rest) := by
        have hA2 : Seg (updNext s.heap pl cn.next) s.head front q₀ :=
          seg_updNext_outside hplfront hsegF
        have hB2 : Seg (updNext s.heap pl cn.next) q₀ [pl] cn.next := by
          rw [hq₀]
          exact Seg.cons hgupd (Seg.nil _)
        have hC2 : Seg (updNext s.heap pl cn.next) cn.next rest none :=
          seg_updNext_outside hplrest2 hcrest
        have hcomp := seg_append (seg_append hA2 hB2) hC2
        rw [← hfront] at hcomp
        exact hcomp
      have hrep2 : Rep (⟨updNext s.heap pl cn.next, s.head,
          if some c = s.tail then some pl else s.tail, s._len - 1⟩ :
          SinglyLinkedList α) ((a :: as₀) ++ rest) := by
        refine ⟨hfol2, ?_, ?_⟩
        · show s._len - 1 = _
          rw [hidseq, htk] at hlen
          simp at hlen ⊢
          omega
        · show (if some c = s.tail then some pl else s.tail) = _
          by_cases hrest : rest = []
          · rw [if_pos (htailiff.mpr hrest), hrest, List.append_nil]
            exact hpl.symm
          · rw [if_neg (fun hcon => hrest (htailiff.mp hcon)), htl, hidseq, htk]
            cases hr2 : rest with
            | nil => exact absurd hr2 hrest
            | cons r rs =>
              rw [List.getLast?_append, List.getLast?_cons_cons,
                List.getLast?_append]
      refine ⟨⟨updNext s.heap pl cn.next, s.head,
        if some c = s.tail then some pl else s.tail, s._len - 1⟩, ?_, ?_, ?_, rfl⟩
      · unfold remove
        rw [hloop]
        rfl
      · rw [hdrop1]
        exact hrep2
      · rw [rep_iter hrep2]
        show chainVals (updNext s.heap pl cn.next) ((a :: as₀) ++ rest) = A ++ B
        rw [chainVals_congr (fun i _ => valueAt_updNext s.heap pl cn.next i)]
        rw [chainVals_append, hBv, ← htk, hA]

theorem follows_head? {h : List (LNode α)} {p : Option Nat} {l : List Nat}
    (hf : Follows h p l) : p = l.head? := by
  cases l with
  | nil => exact follows_nil_inv hf
  | cons i t => exact (follows_cons_inv hf).1

theorem reverseLoop_spec (rest : List Nat) :
    ∀ (h : List (LNode α)) (done : List Nat) (prev cur : Option Nat)
      (fuel : Nat),
      Seg h cur rest none → Seg h prev done none →
      (∀ i ∈ rest, i ∉ done) → rest.length ≤ fuel →
      ∃ h2 p, reverseLoop fuel h prev cur = some (h2, p) ∧
        Follows h2 p (rest.reverse ++ done) ∧
        (∀ i, valueAt h2 i = valueAt h i) ∧ h2.length = h.length := by
  induction rest with
  | nil =>
    intro h done prev cur fuel hcur hdone _ _
    have hcn : cur = none := follows_nil_inv hcur
    refine ⟨h, prev, ?_, by simpa using hdone, fun i => rfl, rfl⟩
    rw [hcn]
    cases fuel <;> rfl
  | cons c rest ih =>
    intro h done prev cur fuel hcur hdone hdisj hfuel
    obtain ⟨hc, n, hg, hrest⟩ := seg_cons_inv hcur
    subst hc
    cases fuel with
    | zero => simp at hfuel
    | succ f =>
      have hclt : c < h.length := (List.get?_eq_some.mp hg).1
      have hstep : reverseLoop (f + 1) h prev (some c)
          = reverseLoop f (h.set c { n with next := prev }) (some c) n.next := by
        simp only [reverseLoop, hg]
      have hcnotrest : c ∉ rest := (List.nodup_cons.mp (follows_nodup hcur)).1
      have hrest1 : Seg (h.set c { n with next := prev }) n.next rest none :=
        seg_set_outside hcnotrest hrest
      have hgc1 : (h.set c { n with next := prev }).get? c
          = some { n with next := prev } :=
        List.get?_set_eq_of_lt _ hclt
      have hdone1 : Seg (h.set c { n with next := prev }) (some c)
          (c :: done) none := by
        refine Seg.cons hgc1 ?_
        show Seg _ prev done none
        exact seg_set_outside (hdisj c (List.mem_cons_self _ _)) hdone
      have hdisj1 : ∀ i ∈ rest, i ∉ c :: done := by
        intro i hi
        simp only [List.mem_cons, not_or]
        refine ⟨fun hcon => hcnotrest ?_, hdisj i (List.mem_cons_of_mem _ hi)⟩
        rw [← hcon]
        exact hi
      obtain ⟨h2, p, hloop, hfol, hvals, hlen2⟩ :=
        ih (h.set c { n with next := prev }) (c :: done) (some c) n.next f
          hrest1 hdone1 hdisj1 (by simp at hfuel ⊢; omega)
      refine ⟨h2, p, ?_, ?_, ?_, ?_⟩
      · rw [hstep]
        exact hloop
      · have hl : rest.reverse ++ (c :: done) = (c :: rest).reverse ++ done := by
          simp
        rw [← hl]
        exact hfol
      · intro i
        rw [hvals i]
        by_cases hic : i = c
        · subst hic
          unfold valueAt
          rw [List.get?_set_eq_of_lt _ hclt, hg]
          rfl
        · unfold valueAt
          rw [List.get?_set_ne _ _ (fun hcon => hic hcon.symm)]
      · rw [hlen2]
        exact List.length_set h c _

theorem reverse_spec {s : SinglyLinkedList α} {ids : List Nat}
    (hr : Rep s ids) :
    ∃ s', s.reverse = some s' ∧ Rep s' ids.reverse ∧
      iter s' = (iter s).reverse ∧ s'.head = s.tail ∧ s'.tail = s.head ∧
      s'._len = s._len ∧ (∀ i, valueAt s'.heap i = valueAt s.heap i) := by
  obtain ⟨h2, p, hloop, hfol, hvals, _⟩ :=
    reverseLoop_spec ids s.heap [] none s.head s._len hr.1 (Seg.nil none)
      (by simp) (le_of_eq hr.2.1.symm)
  rw [List.append_nil] at hfol
  have hrep2 : Rep (⟨h2, p, s.head, s._len⟩ : SinglyLinkedList α)
      ids.reverse := by
    refine ⟨hfol, ?_, ?_⟩
    · show s._len = _
      rw [List.length_reverse]
      exact hr.2.1
    · show s.head = _
      rw [List.getLast?_reverse]
      exact follows_head? hr.1
  refine ⟨⟨h2, p, s.head, s._len⟩, ?_, hrep2, ?_, ?_, rfl, rfl, hvals⟩
  · unfold reverse
    rw [hloop]
  · rw [rep_iter hrep2, rep_iter hr]
    show chainVals h2 ids.reverse = _
    rw [chainVals_congr (fun i _ => hvals i)]
    unfold chainVals
    exact List.filterMap_reverse _ _
  · show p = s.tail
    rw [follows_head? hfol, List.head?_reverse]
    exact hr.2.2.symm

theorem rep_structuralInv {s : SinglyLinkedList α} {ids : List Nat}
    (hr : Rep s ids) : StructuralInv s := by
  obtain ⟨hf, hlen, htl⟩ := hr
  refine ⟨?_, ?_, ?_⟩
  · rw [follows_head? hf, hlen, List.head?_eq_none_iff, List.length_eq_zero]
  · rw [htl, hlen, List.getLast?_eq_none_iff, List.length_eq_zero]
  · intro hne
    constructor
    · rw [walkN_eq_get? hf, htl, hlen, List.getLast?_eq_get?]
    · rw [walkN_eq_get? hf]
      exact List.get?_len_le (by omega)

theorem rep_foldl_append {xs : List α} :
    ∀ {s : SinglyLinkedList α} {ids : List Nat}, Rep s ids →
      ∃ ids', Rep (xs.foldl append s) ids' ∧
        iter (xs.foldl append s) = iter s ++ xs := by
  induction xs with
  | nil =>
    intro s ids hr
    exact ⟨ids, hr, by simp⟩
  | cons x xs ih =>
    intro s ids hr
    obtain ⟨ids', hr', hiter⟩ := ih (rep_append hr x)
    refine ⟨ids', hr', ?_⟩
    show iter (xs.foldl append (s.append x)) = _
    rw [hiter, iter_append hr x]
    simp

theorem iter_emptyList : iter (emptyList : SinglyLinkedList α) = [] := rfl

theorem rep_ofIterable (xs : List α) :
    ∃ ids, Rep (ofIterable xs) ids ∧ iter (ofIterable xs) = xs := by
  obtain ⟨ids, hr, hiter⟩ := rep_foldl_append (rep_emptyList (α := α))
  refine ⟨ids, hr, ?_⟩
  show iter (List.foldl append emptyList xs) = xs
  rw [hiter, iter_emptyList, List.nil_append]

theorem reachable_inv [DecidableEq α] {s : SinglyLinkedList α}
    (hre : Reachable s) : Inv s := by
  induction hre with
  | init xs =>
    obtain ⟨ids, hr, _⟩ := rep_ofIterable xs
    exact ⟨ids, hr⟩
  | prepend_step v _ ihv =>
    obtain ⟨ids, hr⟩ := ihv
    exact ⟨_, rep_prepend hr v⟩
  | append_step v _ ihv =>
    obtain ⟨ids, hr⟩ := ihv
    exact ⟨_, rep_append hr v⟩
  | pop_left_step _ heq ihv =>
    obtain ⟨ids, hr⟩ := ihv
    cases ids with
    | nil =>
      rw [pop_left_empty hr] at heq
      cases heq
    | cons i rest =>
      obtain ⟨n, _, heq2, hrep'⟩ := pop_left_cons hr
      rw [heq2] at heq
      cases heq
      exact ⟨rest, hrep'⟩
  | pop_step _ heq ihv =>
    obtain ⟨ids, hr⟩ := ihv
    cases hids : ids with
    | nil =>
      rw [hids] at hr
      rw [pop_empty hr] at heq
      cases heq
    | cons i rest =>
      cases hrest : rest with
      | nil =>
        rw [hids, hrest] at hr
        obtain ⟨n, _, heq2, hrep'⟩ := pop_single hr
        rw [heq2] at heq
        cases heq
        exact ⟨[], hrep'⟩
      | cons j rest2 =>
        have hne : (j :: rest2 : List Nat) ≠ [] := by simp
        obtain ⟨front, t, hft⟩ : ∃ front t, j :: rest2 = front ++ [t] := by
          obtain ⟨t, ht⟩ := Option.ne_none_iff_exists'.mp
            (fun hcon => hne (List.getLast?_eq_none_iff.mp hcon))
          obtain ⟨front, hf2⟩ := List.getLast?_eq_some_iff.mp ht
          exact ⟨front, t, hf2⟩
        rw [hids, hrest, hft] at hr
        obtain ⟨pl, tn, _, _, heq2, hrep', _, _⟩ := pop_two hr
        rw [heq2] at heq
        cases heq
        exact ⟨_, hrep'⟩
  | set_step _ heq ihv =>
    obtain ⟨ids, hr⟩ := ihv
    rename_i sw s2 i v h0
    by_cases hc : i < 0 ∨ (sw._len : Int) ≤ i
    · rw [set_err v hc] at heq
      cases heq
    · obtain ⟨j, _, heq2, hrep', _⟩ := @set_ok α sw ids hr i v (by omega) (by omega)
      rw [heq2] at heq
      cases heq
      exact ⟨ids, hrep'⟩
  | insert_step _ heq ihv =>
    obtain ⟨ids, hr⟩ := ihv
    rename_i sw s2 i v h0
    by_cases hc : i < 0 ∨ (sw._len : Int) < i
    · rw [insert_err v hc] at heq
      cases heq
    · by_cases hz : i = 0
      · rw [hz, insert_zero] at heq
        cases heq
        exact ⟨_, rep_prepend hr v⟩
      · by_cases hl : i = (sw._len : Int)
        · rw [hl, insert_len hr v] at heq
          cases heq
          exact ⟨_, rep_append hr v⟩
        · obtain ⟨s3, heq2, hrep', _⟩ := @insert_mid α sw ids hr i v (by omega) (by omega)
          rw [heq2] at heq
          cases heq
          exact ⟨_, hrep'⟩
  | remove_step _ heq ihv =>
    obtain ⟨ids, hr⟩ := ihv
    rename_i sw s2 b v h0
    by_cases hmem : v ∈ iter sw
    · obtain ⟨A, B, hab, hnA⟩ := first_mem_split hmem
      obtain ⟨s2, heq2, hrep', _, _⟩ := remove_found hr hab hnA
      rw [heq2] at heq
      cases heq
      exact ⟨_, hrep'⟩
    · rw [remove_not_found hr hmem] at heq
      cases heq
      exact ⟨ids, hr⟩
  | reverse_step _ heq ihv =>
    obtain ⟨ids, hr⟩ := ihv
    obtain ⟨s2, heq2, hrep', _⟩ := reverse_spec hr
    rw [heq2] at heq
    cases heq
    exact ⟨_, hrep'⟩

theorem iter_foldl_prepend {xs : List α} :
    ∀ {s : SinglyLinkedList α} {ids : List Nat}, Rep s ids →
      ∃ ids', Rep (xs.foldl prepend s) ids' ∧
        iter (xs.foldl prepend s) = xs.reverse ++ iter s := by
  induction xs with
  | nil =>
    intro s ids hr
    exact ⟨ids, hr, by simp⟩
  | cons x xs ih =>
    intro s ids hr
    obtain ⟨ids', hr', hiter⟩ := ih (rep_prepend hr x)
    refine ⟨ids', hr', ?_⟩
    show iter (xs.foldl prepend (s.prepend x)) = _
    rw [hiter, iter_prepend hr x]
    simp

/-- C1: `reverse` is an involution on every reachable list: reversing twice
restores the iteration order, the length, the head and tail values, and the
very head and tail node references; and after a single `reverse` the `tail`
reference is the former `head` reference and the `head` reference the former
`tail` reference. -/
theorem claim_C1 [DecidableEq α] {s : SinglyLinkedList α}
    (hre : Reachable s) :
    ∃ s' s'', s.reverse = some s' ∧ s'.reverse = some s'' ∧
      s'.tail = s.head ∧ s'.head = s.tail ∧
      iter s'' = iter s ∧ s''.length = s.length ∧
      headValue s'' = headValue s ∧ tailValue s'' = tailValue s ∧
      s''.head = s.head ∧ s''.tail = s.tail := by
  obtain ⟨ids, hr⟩ := reachable_inv hre
  obtain ⟨s', heq1, hrep1, hiter1, hh1, ht1, hl1, hv1⟩ := reverse_spec hr
  obtain ⟨s'', heq2, hrep2, hiter2, hh2, ht2, hl2, hv2⟩ := reverse_spec hrep1
  have hhead2 : s''.head = s.head := by rw [hh2, ht1]
  have htail2 : s''.tail = s.tail := by rw [ht2, hh1]
  refine ⟨s', s'', heq1, heq2, ht1, hh1, ?_, ?_, ?_, ?_, hhead2, htail2⟩
  · rw [hiter2, hiter1, List.reverse_reverse]
  · show s''._len = s._len
    rw [hl2, hl1]
  · unfold headValue
    rw [hhead2]
    cases s.head with
    | none => rfl
    | some i =>
      show valueAt s''.heap i = valueAt s.heap i
      exact (hv2 i).trans (hv1 i)
  · unfold tailValue
    rw [htail2]
    cases s.tail with
    | none => rfl
    | some i =>
      show valueAt s''.heap i = valueAt s.heap i
      exact (hv2 i).trans (hv1 i)

theorem claim_C1_witness :
    ∃ s' s'', (ofIterable [1, 2, 3] : SinglyLinkedList Int).reverse = some s' ∧
      s'.reverse = some s'' ∧
      s'.tail = (ofIterable [1, 2, 3] : SinglyLinkedList Int).head ∧
      s'.head = (ofIterable [1, 2, 3] : SinglyLinkedList Int).tail ∧
      iter s'' = iter (ofIterable [1, 2, 3] : SinglyLinkedList Int) ∧
      s''.length = (ofIterable [1, 2, 3] : SinglyLinkedList Int).length ∧
      headValue s'' = headValue (ofIterable [1, 2, 3] : SinglyLinkedList Int) ∧
      tailValue s'' = tailValue (ofIterable [1, 2, 3] : SinglyLinkedList Int) ∧
      s''.head = (ofIterable [1, 2, 3] : SinglyLinkedList Int).head ∧
      s''.tail = (ofIterable [1, 2, 3] : SinglyLinkedList Int).tail :=
  claim_C1 (Reachable.init [1, 2, 3])

/-- C2: on every reachable list, `__len__` equals the number of values the
iterator produces. -/
theorem claim_C2 [DecidableEq α] {s : SinglyLinkedList α}
    (hre : Reachable s) : (iter s).length = s.length := by
  obtain ⟨ids, hr⟩ := reachable_inv hre
  exact rep_iter_length hr

theorem claim_C2_witness :
    (iter (ofIterable [5, 6, 7, 8] : SinglyLinkedList Int)).length
      = (ofIterable [5, 6, 7, 8] : SinglyLinkedList Int).length :=
  claim_C2 (Reachable.init [5, 6, 7, 8])

/-- C3: every reachable list satisfies the structural invariant: `head` empty
iff `tail` empty iff zero length, and on a non-empty list the walk from
`head` reaches the node identical to `tail` after `length - 1` links and
ends after exactly `length` links. -/
theorem claim_C3 [DecidableEq α] {s : SinglyLinkedList α}
    (hre : Reachable s) : StructuralInv s := by
  obtain ⟨ids, hr⟩ := reachable_inv hre
  exact rep_structuralInv hr

theorem claim_C3_witness :
    StructuralInv (ofIterable [4, 5] : SinglyLinkedList Int) :=
  claim_C3 (Reachable.init [4, 5])

/-- C8: building only with `append` from the empty list yields the values in
call order; building only with `prepend` yields them in reverse call
order. -/
theorem claim_C8 (xs : List α) :
    iter (xs.foldl append (emptyList : SinglyLinkedList α)) = xs ∧
    iter (xs.foldl prepend (emptyList : SinglyLinkedList α)) = xs.reverse := by
  constructor
  · obtain ⟨ids, _, hiter⟩ := rep_foldl_append (rep_emptyList (α := α))
    rw [hiter, iter_emptyList, List.nil_append]
  · obtain ⟨ids, _, hiter⟩ := iter_foldl_prepend (rep_emptyList (α := α))
    rw [hiter, iter_emptyList, List.append_nil]

/-- C4: `remove` unlinks exactly the first node holding the requested value
and returns `True`, decrementing the length by one, with the structural
invariant (hence the tail reference, moved to the predecessor when the tail
was removed) intact; when no node holds the value it returns `False` and the
state is unchanged. -/
theorem claim_C4 [DecidableEq α] {s : SinglyLinkedList α}
    (hre : Reachable s) (v : α) :
    (v ∉ iter s → s.remove v = some (false, s)) ∧
    (∀ A B, iter s = A ++ v :: B → v ∉ A →
      ∃ s', s.remove v = some (true, s') ∧ iter s' = A ++ B ∧
        s'.length = s.length - 1 ∧ StructuralInv s') := by
  obtain ⟨ids, hr⟩ := reachable_inv hre
  constructor
  · intro hnm
    exact remove_not_found hr hnm
  · intro A B hab hnA
    obtain ⟨s', heq, hrep', hiter', hlen'⟩ := remove_found hr hab hnA
    exact ⟨s', heq, hiter', hlen', rep_structuralInv hrep'⟩

theorem claim_C4_witness :
    (∃ s', (ofIterable [1, 2, 99, 3, 4, 5] : SinglyLinkedList Int).remove 3
        = some (true, s') ∧ iter s' = [1, 2, 99] ++ [4, 5] ∧
      s'.length = (ofIterable [1, 2, 99, 3, 4, 5] :
        SinglyLinkedList Int).length - 1 ∧ StructuralInv s') ∧
    (ofIterable [1, 2, 99, 3, 4, 5] : SinglyLinkedList Int).remove 7
      = some (false, ofIterable [1, 2, 99, 3, 4, 5]) :=
  ⟨(claim_C4 (Reachable.init [1, 2, 99, 3, 4, 5]) 3).2 [1, 2, 99] [4, 5]
      (by decide) (by decide),
    (claim_C4 (Reachable.init [1, 2, 99, 3, 4, 5]) 7).1 (by decide)⟩

/-- C5: `pop` on a non-empty list removes and returns the tail value,
dropping the last element of the iteration, decrementing the length, and
keeping the structural invariant (so the tail reference moves to the old
predecessor); a single-element list ends with both references cleared; on an
empty list it raises `EmptyContainer`; and `pop` right after `append v` on an
empty list returns `v` and leaves the list empty. -/
theorem claim_C5 [DecidableEq α] {s : SinglyLinkedList α}
    (hre : Reachable s) :
    (s.length = 0 → s.pop = .error .emptyContainer) ∧
    (0 < s.length → ∃ w s', s.pop = .ok (w, s') ∧
      (iter s).getLast? = some w ∧ iter s' = (iter s).dropLast ∧
      s'.length = s.length - 1 ∧ StructuralInv s' ∧
      (s.length = 1 → s'.head = none ∧ s'.tail = none)) ∧
    (∀ v : α, s.length = 0 →
      ∃ s', (s.append v).pop = .ok (v, s') ∧ s'.length = 0 ∧ iter s' = [] ∧
        s'.head = none ∧ s'.tail = none) := by
  obtain ⟨ids, hr⟩ := reachable_inv hre
  have hsl : s.length = s._len := rfl
  refine ⟨?_, ?_, ?_⟩
  · intro hl
    have hids : ids = [] := List.length_eq_zero.mp (by
      have := hr.2.1
      omega)
    rw [hids] at hr
    exact pop_empty hr
  · intro hl
    cases hids : ids with
    | nil =>
      rw [hids] at hr
      have := hr.2.1
      simp at this
      omega
    | cons i rest =>
      cases hrest : rest with
      | nil =>
        rw [hids, hrest] at hr
        obtain ⟨n, hg, heq, hrep'⟩ := pop_single hr
        refine ⟨n.value, _, heq, ?_, ?_, rfl, rep_structuralInv hrep', ?_⟩
        · rw [rep_iter hr, chainVals_cons hg]
          rfl
        · rw [rep_iter hrep', rep_iter hr, chainVals_cons hg]
          rfl
        · intro _
          exact ⟨rfl, rfl⟩
      | cons j rest2 =>
        have hne : (j :: rest2 : List Nat) ≠ [] := by simp
        obtain ⟨front, t, hft⟩ : ∃ front t, (j :: rest2 : List Nat)
            = front ++ [t] := by
          obtain ⟨t, ht⟩ := Option.ne_none_iff_exists'.mp
            (fun hcon => hne (List.getLast?_eq_none_iff.mp hcon))
          obtain ⟨front, hf2⟩ := List.getLast?_eq_some_iff.mp ht
          exact ⟨front, t, hf2⟩
        rw [hids, hrest, hft] at hr
        obtain ⟨pl, tn, hlast, htg, heq, hrep', hiter', hgl⟩ := pop_two hr
        refine ⟨tn.value, _, heq, hgl, hiter', rfl, rep_structuralInv hrep', ?_⟩
        intro hl1
        exfalso
        have := hr.2.1
        simp at this
        omega
  · intro v hl
    have hids : ids = [] := List.length_eq_zero.mp (by
      have := hr.2.1
      omega)
    have htail : s.tail = none := by
      rw [hr.2.2, hids]
      rfl
    have hrap : Rep (s.append v) (ids ++ [s.heap.length]) := rep_append hr v
    rw [hids, List.nil_append] at hrap
    obtain ⟨n, hg, heq, hrep'⟩ := pop_single hrap
    have hg2 : (s.heap ++ [(⟨v, none⟩ : LNode α)]).get? s.heap.length
        = some n := by
      rw [append_tail_none v htail] at hg
      exact hg
    rw [List.get?_concat_length] at hg2
    have hn : n = ⟨v, none⟩ := by
      injection hg2 with hg3
      exact hg3.symm
    subst hn
    refine ⟨_, heq, ?_, ?_, rfl, rfl⟩
    · show (s.append v)._len - 1 = 0
      rw [append_tail_none v htail]
      show s._len + 1 - 1 = 0
      omega
    · rw [rep_iter hrep']
      rfl

theorem claim_C5_witness :
    (∃ w s', (ofIterable [1, 2] : SinglyLinkedList Int).pop = .ok (w, s') ∧
      (iter (ofIterable [1, 2] : SinglyLinkedList Int)).getLast? = some w ∧
      iter s' = (iter (ofIterable [1, 2] : SinglyLinkedList Int)).dropLast ∧
      s'.length = (ofIterable [1, 2] : SinglyLinkedList Int).length - 1 ∧
      StructuralInv s' ∧
      ((ofIterable [1, 2] : SinglyLinkedList Int).length = 1 →
        s'.head = none ∧ s'.tail = none)) ∧
    (∃ s', ((ofIterable ([] : List Int)).append 7).pop = .ok (7, s') ∧
      s'.length = 0 ∧ iter s' = [] ∧ s'.head = none ∧ s'.tail = none) :=
  ⟨(claim_C5 (Reachable.init [1, 2])).2.1 (by decide),
    (claim_C5 (Reachable.init [])).2.2 7 (by decide)⟩

/-- C6: `insert` before every in-range position places the value at that
position of the iteration; `insert` at `length` equals `append`, `insert` at
`0` equals `prepend`, and `insert` fails with `IndexOutOfRange` exactly when
the index is negative or exceeds the length. -/
theorem claim_C6 [DecidableEq α] {s : SinglyLinkedList α}
    (hre : Reachable s) (v : α) :
    (∀ i : Int, 0 ≤ i → i ≤ (s.length : Int) →
      ∃ s', s.insert i v = .ok s' ∧
        iter s' = (iter s).take i.toNat ++ v :: (iter s).drop i.toNat) ∧
    s.insert (s.length : Int) v = .ok (s.append v) ∧
    s.insert 0 v = .ok (s.prepend v) ∧
    (∀ i : Int, (i < 0 ∨ (s.length : Int) < i) ↔
      s.insert i v = .error .indexOutOfRange) := by
  obtain ⟨ids, hr⟩ := reachable_inv hre
  have hsl : s.length = s._len := rfl
  have hok : ∀ i : Int, 0 ≤ i → i ≤ (s.length : Int) →
      ∃ s', s.insert i v = .ok s' ∧
        iter s' = (iter s).take i.toNat ++ v :: (iter s).drop i.toNat := by
    intro i hge hle
    by_cases hz : i = 0
    · subst hz
      refine ⟨s.prepend v, insert_zero s v, ?_⟩
      rw [iter_prepend hr v]
      rfl
    · by_cases hl2 : i = (s.length : Int)
      · subst hl2
        refine ⟨s.append v, insert_len hr v, ?_⟩
        rw [iter_append hr v]
        have hil : ((s.length : Int)).toNat = (iter s).length := by
          rw [rep_iter_length hr]
          simp [length]
        rw [hil, List.take_length, List.drop_length]
      · obtain ⟨s', heq, hrep', hiter'⟩ :=
          @insert_mid α s ids hr i v (by omega) (by omega)
        exact ⟨s', heq, hiter'⟩
  refine ⟨hok, insert_len hr v, insert_zero s v, ?_⟩
  intro i
  constructor
  · intro hc
    exact insert_err v (by omega)
  · intro herr
    by_contra hcon
    obtain ⟨h1, h2⟩ := not_or.mp hcon
    obtain ⟨s', heq, _⟩ := hok i (by omega) (by omega)
    rw [heq] at herr
    cases herr

theorem claim_C6_witness :
    (∃ s', (ofIterable [1, 2, 3, 4, 5] : SinglyLinkedList Int).insert 2 99
        = .ok s' ∧
      iter s' = (iter (ofIterable [1, 2, 3, 4, 5] :
          SinglyLinkedList Int)).take 2
        ++ 99 :: (iter (ofIterable [1, 2, 3, 4, 5] :
          SinglyLinkedList Int)).drop 2) ∧
    ((6 : Int) < 0 ∨ ((ofIterable [1, 2, 3, 4, 5] :
        SinglyLinkedList Int).length : Int) < 6) ∧
    (ofIterable [1, 2, 3, 4, 5] : SinglyLinkedList Int).insert 6 99
      = .error .indexOutOfRange :=
  ⟨(claim_C6 (Reachable.init [1, 2, 3, 4, 5]) 99).1 2 (by decide) (by decide),
    by decide,
    ((claim_C6 (Reachable.init [1, 2, 3, 4, 5]) 99).2.2.2 6).mp (by decide)⟩

/-- C7: `get`, `set` and `insert` with an out-of-range index always fail with
`IndexOutOfRange` (the bounds check precedes any mutation, so the functional
result carries no changed state), and `pop_left` and `pop` on an empty
reachable list always fail with `EmptyContainer`. -/
theorem claim_C7 [DecidableEq α] {s : SinglyLinkedList α} :
    (∀ (i : Int) (v : α), i < 0 ∨ (s.length : Int) ≤ i →
      s.get i = .error .indexOutOfRange ∧
      s.set i v = .error .indexOutOfRange) ∧
    (∀ (i : Int) (v : α), i < 0 ∨ (s.length : Int) < i →
      s.insert i v = .error .indexOutOfRange) ∧
    (Reachable s → s.length = 0 →
      s.pop_left = .error .emptyContainer ∧ s.pop = .error .emptyContainer) := by
  have hsl : s.length = s._len := rfl
  refine ⟨?_, ?_, ?_⟩
  · intro i v hc
    exact ⟨get_err (by omega), set_err v (by omega)⟩
  · intro i v hc
    exact insert_err v (by omega)
  · intro hre hl
    obtain ⟨ids, hr⟩ := reachable_inv hre
    have hids : ids = [] := List.length_eq_zero.mp (by
      have := hr.2.1
      omega)
    rw [hids] at hr
    exact ⟨pop_left_empty hr, pop_empty hr⟩

theorem claim_C7_witness :
    ((ofIterable [1, 2] : SinglyLinkedList Int).get 5
        = .error .indexOutOfRange ∧
      (ofIterable [1, 2] : SinglyLinkedList Int).set 5 0
        = .error .indexOutOfRange) ∧
    (ofIterable [1, 2] : SinglyLinkedList Int).insert (-1) 0
      = .error .indexOutOfRange ∧
    (ofIterable ([] : List Int)).pop_left = .error .emptyContainer ∧
    (ofIterable ([] : List Int)).pop = .error .emptyContainer :=
  ⟨claim_C7.1 5 0 (by decide),
    claim_C7.2.1 (-1) 0 (by decide),
    claim_C7.2.2 (Reachable.init []) (by decide)⟩

/-- C9: `set` at an in-range index changes only that position: the length,
the head and tail references, and every other position of the iteration are
unchanged, and the updated position reads back the new value. -/
theorem claim_C9 [DecidableEq α] {s : SinglyLinkedList α}
    (hre : Reachable s) {i : Int} (v : α) (hge : 0 ≤ i)
    (hlt : i < (s.length : Int)) :
    ∃ s', s.set i v = .ok s' ∧ iter s' = (iter s).set i.toNat v ∧
      s'.length = s.length ∧ s'.head = s.head ∧ s'.tail = s.tail ∧
      (∀ k : Nat, k ≠ i.toNat → (iter s').get? k = (iter s).get? k) ∧
      (iter s').get? i.toNat = some v := by
  obtain ⟨ids, hr⟩ := reachable_inv hre
  have hsl : s.length = s._len := rfl
  obtain ⟨j, hj, heq, hrep', hiter'⟩ := @set_ok α s ids hr i v hge (by omega)
  refine ⟨_, heq, hiter', rfl, rfl, rfl, ?_, ?_⟩
  · intro k hk
    rw [hiter']
    exact List.get?_set_ne v _ (fun hcon => hk hcon.symm)
  · rw [hiter']
    refine List.get?_set_eq_of_lt v ?_
    rw [rep_iter_length hr]
    omega

theorem claim_C9_witness :
    ∃ s', (ofIterable [1, 2, 3] : SinglyLinkedList Int).set 1 7 = .ok s' ∧
      iter s' = (iter (ofIterable [1, 2, 3] : SinglyLinkedList Int)).set 1 7 ∧
      s'.length = (ofIterable [1, 2, 3] : SinglyLinkedList Int).length ∧
      s'.head = (ofIterable [1, 2, 3] : SinglyLinkedList Int).head ∧
      s'.tail = (ofIterable [1, 2, 3] : SinglyLinkedList Int).tail ∧
      (∀ k : Nat, k ≠ (1 : Int).toNat →
        (iter s').get? k
          = (iter (ofIterable [1, 2, 3] : SinglyLinkedList Int)).get? k) ∧
      (iter s').get? (1 : Int).toNat = some 7 :=
  claim_C9 (Reachable.init [1, 2, 3]) 7 (by decide) (by decide)

/-- C10: `reverse` on an empty or single-element list never fails and is
observably the identity: same iteration, same length, and the head and tail
references designate the same nodes as before. -/
theorem claim_C10 [DecidableEq α] {s : SinglyLinkedList α}
    (hre : Reachable s) (hlen : s.length ≤ 1) :
    ∃ s', s.reverse = some s' ∧ iter s' = iter s ∧ s'.length = s.length ∧
      s'.head = s.head ∧ s'.tail = s.tail := by
  obtain ⟨ids, hr⟩ := reachable_inv hre
  have hsl : s.length = s._len := rfl
  obtain ⟨s', heq, hrep', hiter', hh, ht, hl, _⟩ := reverse_spec hr
  have hht : s.head = s.tail := by
    cases hids : ids with
    | nil =>
      rw [hids] at hr
      rw [follows_nil_inv hr.1, hr.2.2]
      rfl
    | cons i rest =>
      cases hrest : rest with
      | nil =>
        rw [hids, hrest] at hr
        rw [(follows_cons_inv hr.1).1, hr.2.2]
        rfl
      | cons j rest2 =>
        exfalso
        have := hr.2.1
        rw [hids, hrest] at this
        simp at this
        omega
  refine ⟨s', heq, ?_, ?_, ?_, ?_⟩
  · rw [hiter']
    have hil : (iter s).length ≤ 1 := by
      rw [rep_iter_length hr]
      omega
    cases hit : iter s with
    | nil => rfl
    | cons x rest =>
      cases hr2 : rest with
      | nil => rfl
      | cons y rest2 =>
        exfalso
        rw [hit, hr2] at hil
        simp at hil
  · show s'._len = s._len
    exact hl
  · rw [hh, ← hht]
  · rw [ht, hht]

theorem claim_C10_witness :
    (∃ s', (ofIterable ([] : List Int)).reverse = some s' ∧
      iter s' = iter (ofIterable ([] : List Int)) ∧
      s'.length = (ofIterable ([] : List Int)).length ∧
      s'.head = (ofIterable ([] : List Int)).head ∧
      s'.tail = (ofIterable ([] : List Int)).tail) ∧
    (∃ s', (ofIterable [42] : SinglyLinkedList Int).reverse = some s' ∧
      iter s' = iter (ofIterable [42] : SinglyLinkedList Int) ∧
      s'.length = (ofIterable [42] : SinglyLinkedList Int).length ∧
      s'.head = (ofIterable [42] : SinglyLinkedList Int).head ∧
      s'.tail = (ofIterable [42] : SinglyLinkedList Int).tail) :=
  ⟨claim_C10 (Reachable.init []) (by decide),
    claim_C10 (Reachable.init [42]) (by decide)⟩

end SinglyLinkedList
